import Mathlib

/-!
Verification of the smoldb Bitcask storage engine, server loop and
connection pool against their natural-language specification.

The definitions in this file are a shallow embedding of the Rust source:

* `src/storage/bitcask.rs` — byte-level model of the record format
  (`encodeRecord` / `write_value`), recovery parsing (`read_next_entry`,
  `loadAux`, `loadKeyDir`), the key directory, `set`, `get`, `remove`,
  `list_keys`, `compact`, and the `open` file-id selection logic.
  Rust `String` keys and values are modelled by their UTF-8 byte
  sequences (`List Nat`, each element < 256); the encoding is injective,
  so string equality coincides with byte-list equality.  Machine
  integers (`u16`/`u32`/`u64`) are modelled as `Nat` with explicit
  `% 2 ^ w` where the source performs a narrowing cast.
* `src/server/server.rs` — the per-connection `serve` loop over an
  abstract storage engine and an explicit trace of connection events.
* `src/client/pool.rs` — a step relation on pool states.
-/

namespace Smoldb

/-! ## Byte-level encoding helpers (byteorder::BigEndian writes) -/

/-- Byte `k` (as a shift amount in bits) of the natural number `n`. -/
def byteAt (n k : Nat) : Nat := n / 2 ^ k % 256

/-- Big-endian bytes of a `u16`, as written by `write_u16::<BigEndian>`. -/
def u16be (n : Nat) : List Nat := [byteAt n 8, byteAt n 0]

/-- Big-endian bytes of a `u32`, as written by `write_u32::<BigEndian>`. -/
def u32be (n : Nat) : List Nat := [byteAt n 24, byteAt n 16, byteAt n 8, byteAt n 0]

/-- Big-endian bytes of a `u64`, as written by `write_u64::<BigEndian>`. -/
def u64be (n : Nat) : List Nat :=
  [byteAt n 56, byteAt n 48, byteAt n 40, byteAt n 32,
   byteAt n 24, byteAt n 16, byteAt n 8, byteAt n 0]

/-- Big-endian value of a byte list, as read by `read_uNN::<BigEndian>`. -/
def beToNat (l : List Nat) : Nat := l.foldl (fun acc b => acc * 256 + b) 0

theorem byteAt_lt (n k : Nat) : byteAt n k < 256 :=
  Nat.mod_lt _ (by norm_num)

@[simp] theorem u16be_length (n : Nat) : (u16be n).length = 2 := rfl
@[simp] theorem u32be_length (n : Nat) : (u32be n).length = 4 := rfl
@[simp] theorem u64be_length (n : Nat) : (u64be n).length = 8 := rfl

theorem u16be_bytes_lt (n : Nat) : ∀ b ∈ u16be n, b < 256 := by
  simp [u16be]; exact ⟨byteAt_lt _ _, byteAt_lt _ _⟩

theorem u32be_bytes_lt (n : Nat) : ∀ b ∈ u32be n, b < 256 := by
  simp [u32be]
  exact ⟨byteAt_lt _ _, byteAt_lt _ _, byteAt_lt _ _, byteAt_lt _ _⟩

theorem u64be_bytes_lt (n : Nat) : ∀ b ∈ u64be n, b < 256 := by
  simp [u64be]
  exact ⟨byteAt_lt _ _, byteAt_lt _ _, byteAt_lt _ _, byteAt_lt _ _,
         byteAt_lt _ _, byteAt_lt _ _, byteAt_lt _ _, byteAt_lt _ _⟩

theorem beToNat_u16be (n : Nat) : beToNat (u16be n) = n % 2 ^ 16 := by
  simp only [u16be, beToNat, List.foldl, byteAt]
  omega

theorem beToNat_u32be (n : Nat) : beToNat (u32be n) = n % 2 ^ 32 := by
  simp only [u32be, beToNat, List.foldl, byteAt]
  omega

theorem beToNat_u64be (n : Nat) : beToNat (u64be n) = n % 2 ^ 64 := by
  simp only [u64be, beToNat, List.foldl, byteAt]
  omega

theorem byteAt_mod (n k m : Nat) (h : k + 8 ≤ m) :
    byteAt (n % 2 ^ m) k = byteAt n k := by
  unfold byteAt
  have hsplit : 2 ^ m = 2 ^ k * 2 ^ (m - k) := by
    rw [← pow_add]; congr 1; omega
  rw [hsplit, Nat.mod_mul_right_div_self]
  have hdvd : (256 : Nat) ∣ 2 ^ (m - k) := by
    have : (256 : Nat) = 2 ^ 8 := by norm_num
    rw [this]; exact pow_dvd_pow 2 (by omega)
  rw [Nat.mod_mod_of_dvd _ hdvd]

theorem u16be_mod (n : Nat) : u16be (n % 2 ^ 16) = u16be n := by
  simp only [u16be]
  rw [byteAt_mod _ _ _ (by norm_num : 8 + 8 ≤ 16),
      byteAt_mod _ _ _ (by norm_num : 0 + 8 ≤ 16)]

theorem u32be_mod (n : Nat) : u32be (n % 2 ^ 32) = u32be n := by
  simp only [u32be]
  rw [byteAt_mod _ _ _ (by norm_num : 24 + 8 ≤ 32),
      byteAt_mod _ _ _ (by norm_num : 16 + 8 ≤ 32),
      byteAt_mod _ _ _ (by norm_num : 8 + 8 ≤ 32),
      byteAt_mod _ _ _ (by norm_num : 0 + 8 ≤ 32)]

theorem u64be_mod (n : Nat) : u64be (n % 2 ^ 64) = u64be n := by
  simp only [u64be]
  rw [byteAt_mod _ _ _ (by norm_num : 56 + 8 ≤ 64),
      byteAt_mod _ _ _ (by norm_num : 48 + 8 ≤ 64),
      byteAt_mod _ _ _ (by norm_num : 40 + 8 ≤ 64),
      byteAt_mod _ _ _ (by norm_num : 32 + 8 ≤ 64),
      byteAt_mod _ _ _ (by norm_num : 24 + 8 ≤ 64),
      byteAt_mod _ _ _ (by norm_num : 16 + 8 ≤ 64),
      byteAt_mod _ _ _ (by norm_num : 8 + 8 ≤ 64),
      byteAt_mod _ _ _ (by norm_num : 0 + 8 ≤ 64)]

/-- Decoding then re-encoding a 2-byte big-endian field is the identity. -/
theorem u16be_beToNat (l : List Nat) (hl : l.length = 2)
    (hb : ∀ b ∈ l, b < 256) : u16be (beToNat l) = l := by
  match l, hl with
  | [a, b], _ =>
    have ha := hb a (by simp)
    have hbb := hb b (by simp)
    simp only [beToNat, List.foldl, u16be, byteAt, List.cons.injEq, and_true]
    omega

theorem u32be_beToNat (l : List Nat) (hl : l.length = 4)
    (hb : ∀ b ∈ l, b < 256) : u32be (beToNat l) = l := by
  match l, hl with
  | [a, b, c, d], _ =>
    have ha := hb a (by simp)
    have hb2 := hb b (by simp)
    have hc := hb c (by simp)
    have hd := hb d (by simp)
    simp only [beToNat, List.foldl, u32be, byteAt, List.cons.injEq, and_true]
    omega

theorem u64be_beToNat (l : List Nat) (hl : l.length = 8)
    (hb : ∀ b ∈ l, b < 256) : u64be (beToNat l) = l := by
  match l, hl with
  | [a, b, c, d, e, f, g, h], _ =>
    have ha := hb a (by simp)
    have hb2 := hb b (by simp)
    have hc := hb c (by simp)
    have hd := hb d (by simp)
    have he := hb e (by simp)
    have hf := hb f (by simp)
    have hg := hb g (by simp)
    have hh := hb h (by simp)
    simp only [beToNat, List.foldl, u64be, byteAt, List.cons.injEq, and_true]
    omega

theorem beToNat_lt_u16 (l : List Nat) (hl : l.length = 2)
    (hb : ∀ b ∈ l, b < 256) : beToNat l < 2 ^ 16 := by
  match l, hl with
  | [a, b], _ =>
    have ha := hb a (by simp)
    have hbb := hb b (by simp)
    simp only [beToNat, List.foldl]
    omega

/-! ## CRC-16/IBM-SDLC (the `crc` crate's X25 instance)

Reflected CRC with polynomial 0x1021 (reversed: 0x8408), initial value
0xFFFF and final xor 0xFFFF.  One input bit is consumed per `crcStepBit`
(LSB first after the byte is xor-ed into the state). -/

/-- One bit-step of the reflected CRC-16/IBM-SDLC computation. -/
def crcStepBit (s : Nat) : Nat :=
  if s % 2 = 1 then (s / 2) ^^^ 0x8408 else s / 2

/-- Consume one input byte: xor it into the state, then do 8 bit-steps. -/
def crcStepByte (s b : Nat) : Nat := crcStepBit^[8] (s ^^^ b)

/-- Run the CRC state machine over a byte list. -/
def crcRun (s : Nat) (l : List Nat) : Nat := l.foldl crcStepByte s

/-- CRC-16/IBM-SDLC of a byte list (`X25.checksum` in the source). -/
def crcX25 (l : List Nat) : Nat := crcRun 0xFFFF l ^^^ 0xFFFF

set_option maxRecDepth 20000 in
/-- Standard check value of CRC-16/IBM-SDLC: the ASCII bytes of
"123456789" hash to 0x906E. -/
theorem crcX25_check :
    crcX25 [0x31, 0x32, 0x33, 0x34, 0x35, 0x36, 0x37, 0x38, 0x39] = 0x906E := by
  decide

@[simp] theorem crcStepBit_zero : crcStepBit 0 = 0 := by decide

theorem div_two_xor (s t : Nat) : (s ^^^ t) / 2 = s / 2 ^^^ t / 2 := by
  apply Nat.eq_of_testBit_eq
  intro i
  simp [Nat.testBit_div_two, Nat.testBit_xor]

theorem xor_cancel_right (a b p : Nat) : (a ^^^ p) ^^^ (b ^^^ p) = a ^^^ b := by
  apply Nat.eq_of_testBit_eq
  intro i
  simp only [Nat.testBit_xor]
  cases a.testBit i <;> cases b.testBit i <;> cases p.testBit i <;> rfl

theorem crcStepBit_xor (s t : Nat) :
    crcStepBit (s ^^^ t) = crcStepBit s ^^^ crcStepBit t := by
  have hmod : (s ^^^ t) % 2 = (s + t) % 2 := Nat.xor_mod_two_eq
  unfold crcStepBit
  rcases Nat.mod_two_eq_zero_or_one s with hs | hs <;>
    rcases Nat.mod_two_eq_zero_or_one t with ht | ht
  · rw [if_neg (by omega : ¬(s ^^^ t) % 2 = 1), if_neg (by omega : ¬s % 2 = 1),
        if_neg (by omega : ¬t % 2 = 1), div_two_xor]
  · rw [if_pos (by omega : (s ^^^ t) % 2 = 1), if_neg (by omega : ¬s % 2 = 1),
        if_pos ht, div_two_xor, Nat.xor_assoc]
  · rw [if_pos (by omega : (s ^^^ t) % 2 = 1), if_pos hs,
        if_neg (by omega : ¬t % 2 = 1), div_two_xor]
    rw [Nat.xor_assoc, Nat.xor_comm (t / 2) 0x8408, ← Nat.xor_assoc]
  · rw [if_neg (by omega : ¬(s ^^^ t) % 2 = 1), if_pos hs, if_pos ht,
        div_two_xor, xor_cancel_right]

theorem crcStepBit_lt (s : Nat) (h : s < 2 ^ 16) : crcStepBit s < 2 ^ 16 := by
  unfold crcStepBit
  split
  · exact Nat.xor_lt_two_pow (by omega) (by norm_num)
  · omega

theorem crcStepBit_eq_zero (s : Nat) (h : s < 2 ^ 16)
    (h0 : crcStepBit s = 0) : s = 0 := by
  unfold crcStepBit at h0
  split at h0
  · rw [Nat.xor_eq_zero] at h0
    omega
  · omega

theorem iterate_crcStepBit_xor (n s t : Nat) :
    crcStepBit^[n] (s ^^^ t) = crcStepBit^[n] s ^^^ crcStepBit^[n] t := by
  induction n generalizing s t with
  | zero => simp
  | succ n ih =>
    rw [Function.iterate_succ_apply, Function.iterate_succ_apply,
        Function.iterate_succ_apply, crcStepBit_xor, ih]

theorem iterate_crcStepBit_lt (n s : Nat) (h : s < 2 ^ 16) :
    crcStepBit^[n] s < 2 ^ 16 := by
  induction n generalizing s with
  | zero => simpa
  | succ n ih =>
    rw [Function.iterate_succ_apply]
    exact ih _ (crcStepBit_lt _ h)

theorem iterate_crcStepBit_ne_zero (n s : Nat) (h : s < 2 ^ 16)
    (h0 : s ≠ 0) : crcStepBit^[n] s ≠ 0 := by
  induction n generalizing s with
  | zero => simpa
  | succ n ih =>
    rw [Function.iterate_succ_apply]
    refine ih _ (crcStepBit_lt _ h) ?_
    intro hz
    exact h0 (crcStepBit_eq_zero _ h hz)

theorem crcStepByte_xor (s t a b : Nat) :
    crcStepByte (s ^^^ t) (a ^^^ b) = crcStepByte s a ^^^ crcStepByte t b := by
  unfold crcStepByte
  rw [← iterate_crcStepBit_xor]
  congr 1
  apply Nat.eq_of_testBit_eq
  intro i
  simp only [Nat.testBit_xor]
  cases s.testBit i <;> cases t.testBit i <;>
    cases a.testBit i <;> cases b.testBit i <;> rfl

theorem crcRun_xor (l1 l2 : List Nat) (h : l1.length = l2.length)
    (s t : Nat) :
    crcRun (s ^^^ t) (List.zipWith (· ^^^ ·) l1 l2) =
      crcRun s l1 ^^^ crcRun t l2 := by
  induction l1 generalizing l2 s t with
  | nil =>
    cases l2 with
    | nil => simp [crcRun]
    | cons b bs => simp at h
  | cons a as ih =>
    cases l2 with
    | nil => simp at h
    | cons b bs =>
      have h' : as.length = bs.length := by simpa using h
      have hih := ih bs h' (crcStepByte s a) (crcStepByte t b)
      rw [← crcStepByte_xor] at hih
      simpa [crcRun] using hih

@[simp] theorem crcStepByte_zero_zero : crcStepByte 0 0 = 0 := by
  unfold crcStepByte
  rw [Nat.xor_zero]
  exact Function.iterate_fixed crcStepBit_zero 8

theorem crcRun_zero_replicate (n : Nat) :
    crcRun 0 (List.replicate n 0) = 0 := by
  induction n with
  | zero => rfl
  | succ n ih => simpa [crcRun, List.replicate_succ] using ih

theorem crcStepByte_zero_lt (s : Nat) (h : s < 2 ^ 16) :
    crcStepByte s 0 < 2 ^ 16 := by
  unfold crcStepByte
  rw [Nat.xor_zero]
  exact iterate_crcStepBit_lt _ _ h

theorem crcRun_replicate_ne_zero (n s : Nat) (h : s < 2 ^ 16) (h0 : s ≠ 0) :
    crcRun s (List.replicate n 0) ≠ 0 := by
  induction n generalizing s with
  | zero => simpa [crcRun]
  | succ n ih =>
    rw [List.replicate_succ]
    simp only [crcRun, List.foldl_cons]
    refine ih _ (crcStepByte_zero_lt _ h) ?_
    unfold crcStepByte
    rw [Nat.xor_zero]
    exact iterate_crcStepBit_ne_zero _ _ h h0

theorem zipWith_xor_self (l : List Nat) :
    List.zipWith (· ^^^ ·) l l = List.replicate l.length 0 := by
  induction l with
  | nil => rfl
  | cons a as ih => simp [List.replicate_succ, ih]

/-- CRC-16 detects every single-byte substitution in a message:
two byte lists that agree everywhere except at one position where the
bytes (each < 256) differ have different checksums. -/
theorem crcX25_ne_of_single_byte_diff (pre suf : List Nat) (a b : Nat)
    (ha : a < 256) (hb : b < 256) (hne : a ≠ b) :
    crcX25 (pre ++ a :: suf) ≠ crcX25 (pre ++ b :: suf) := by
  intro heq
  have hx : crcX25 (pre ++ a :: suf) ^^^ crcX25 (pre ++ b :: suf) = 0 := by
    rw [heq, Nat.xor_self]
  unfold crcX25 at hx
  rw [xor_cancel_right] at hx
  have hlen : (pre ++ a :: suf).length = (pre ++ b :: suf).length := by simp
  have hrun := crcRun_xor (pre ++ a :: suf) (pre ++ b :: suf) hlen 0xFFFF 0xFFFF
  rw [Nat.xor_self] at hrun
  have hzip : List.zipWith (· ^^^ ·) (pre ++ a :: suf) (pre ++ b :: suf) =
      List.replicate pre.length 0 ++ (a ^^^ b) :: List.replicate suf.length 0 := by
    rw [List.zipWith_append _ _ _ _ _ rfl, List.zipWith_cons_cons,
        zipWith_xor_self, zipWith_xor_self]
  rw [hzip] at hrun
  rw [← hrun] at hx
  have hd : a ^^^ b ≠ 0 := fun h => hne (Nat.xor_eq_zero.mp h)
  have hdlt : a ^^^ b < 2 ^ 16 :=
    Nat.xor_lt_two_pow (by omega) (by omega)
  have : crcRun 0 (List.replicate pre.length 0 ++
      (a ^^^ b) :: List.replicate suf.length 0) ≠ 0 := by
    unfold crcRun
    rw [List.foldl_append]
    have h1 : List.foldl crcStepByte 0 (List.replicate pre.length 0) = 0 :=
      crcRun_zero_replicate pre.length
    rw [h1, List.foldl_cons]
    have h2 : crcStepByte 0 (a ^^^ b) ≠ 0 := by
      unfold crcStepByte
      rw [Nat.zero_xor]
      exact iterate_crcStepBit_ne_zero _ _ hdlt hd
    have h3 : crcStepByte 0 (a ^^^ b) < 2 ^ 16 := by
      unfold crcStepByte
      rw [Nat.zero_xor]
      exact iterate_crcStepBit_lt _ _ hdlt
    exact crcRun_replicate_ne_zero _ _ h3 h2
  exact this hx

theorem crcRun_lt (l : List Nat) (s : Nat) (hs : s < 2 ^ 16)
    (hb : ∀ b ∈ l, b < 256) : crcRun s l < 2 ^ 16 := by
  induction l generalizing s with
  | nil => simpa [crcRun]
  | cons a as ih =>
    have ha : a < 256 := hb a (by simp)
    have h1 : crcStepByte s a < 2 ^ 16 := by
      unfold crcStepByte
      exact iterate_crcStepBit_lt _ _ (Nat.xor_lt_two_pow hs (by omega))
    have h2 : ∀ b ∈ as, b < 256 := fun b hbm => hb b (by simp [hbm])
    exact ih _ h1 h2

/-- The checksum of a byte list fits in a `u16`. -/
theorem crcX25_lt (l : List Nat) (hb : ∀ b ∈ l, b < 256) :
    crcX25 l < 2 ^ 16 := by
  unfold crcX25
  exact Nat.xor_lt_two_pow (crcRun_lt l _ (by norm_num) hb) (by norm_num)

/-! ## Bitcask data model

Rust `String` keys and values are modelled by their UTF-8 byte lists.
`String::from_utf8` on bytes that were produced by `String::as_bytes` is
the identity, so it is modelled as such on the read path; on the
recovery path it runs only after the checksum test has already passed. -/

abbrev Key := List Nat
abbrev Value := List Nat

/-- The constructors of `StorageError` that the modelled code paths can
produce.  `io` stands for any `std::io::Error` (in particular
`UnexpectedEof` from `read_exact`/`read_uNN` and file-open failures). -/
inductive StorageError where
  | io
  | keyNotFound
  | dataCorruption (stored computed : Nat)
  | utf8
  deriving DecidableEq, Repr

/-- The key-directory entry (`struct Entry` in `bitcask.rs`). -/
structure Entry where
  file_id : Nat
  value_len : Nat
  value_pos : Nat
  timestamp : Nat
  deriving DecidableEq, Repr

def LOG_SIZE_THRESHOLD : Nat := 1024 * 1024

/-- The record bytes that `write_value` serializes into its scratch
buffer before computing the checksum: timestamp, key length (cast to
`u32`), value length (cast to `u32`), key bytes, value bytes. -/
def encodeBody (ts : Nat) (key value : List Nat) : List Nat :=
  u64be ts ++ u32be key.length ++ u32be value.length ++ key ++ value

/-- The full on-disk record: 2-byte big-endian CRC-16/IBM-SDLC over the
body, then the body. -/
def encodeRecord (ts : Nat) (key value : List Nat) : List Nat :=
  u16be (crcX25 (encodeBody ts key value)) ++ encodeBody ts key value

theorem encodeBody_length (ts : Nat) (key value : List Nat) :
    (encodeBody ts key value).length = 16 + key.length + value.length := by
  simp [encodeBody]; omega

theorem encodeRecord_length (ts : Nat) (key value : List Nat) :
    (encodeRecord ts key value).length = 18 + key.length + value.length := by
  simp [encodeRecord, encodeBody]; omega

/-- `write_value`: append a record for `(key, value)` to the given file
bytes and return the new file contents together with the `Entry` that
the caller publishes in the key directory.  `value_pos` is the stream
position after the write minus the value length; `value_len` is the
value length cast to `u32`; the timestamp is a `u64`. -/
def write_value (fileBytes : List Nat) (file_id : Nat) (key value : List Nat)
    (ts : Nat) : List Nat × Entry :=
  let newBytes := fileBytes ++ encodeRecord ts key value
  (newBytes,
   { file_id := file_id,
     value_len := value.length % 2 ^ 32,
     value_pos := newBytes.length - value.length,
     timestamp := ts % 2 ^ 64 })

/-- Read exactly `n` bytes at position `pos` (seek + `read_exact`); too
few available bytes is an I/O error (`UnexpectedEof`). -/
def readBytes (bytes : List Nat) (pos n : Nat) :
    Except StorageError (List Nat × Nat) :=
  if pos + n ≤ bytes.length then .ok ((bytes.drop pos).take n, pos + n)
  else .error .io

/-- `read_next_entry`: at end of file return `none`; otherwise read the
header fields and the key and value bytes, re-serialize the body,
recompute the checksum, and fail with `DataCorruption` on mismatch. -/
def read_next_entry (file_id : Nat) (bytes : List Nat) (pos : Nat) :
    Except StorageError (Option (Key × Entry × Nat)) :=
  if pos = bytes.length then .ok none
  else
    match readBytes bytes pos 2 with
    | .error e => .error e
    | .ok (c2, pos1) =>
    match readBytes bytes pos1 8 with
    | .error e => .error e
    | .ok (t8, pos2) =>
    match readBytes bytes pos2 4 with
    | .error e => .error e
    | .ok (k4, pos3) =>
    match readBytes bytes pos3 4 with
    | .error e => .error e
    | .ok (v4, pos4) =>
    match readBytes bytes pos4 (beToNat k4) with
    | .error e => .error e
    | .ok (key_bytes, pos5) =>
    match readBytes bytes pos5 (beToNat v4) with
    | .error e => .error e
    | .ok (value_bytes, pos6) =>
      let checksum := beToNat c2
      let entry_bytes := u64be (beToNat t8) ++ u32be (beToNat k4) ++
        u32be (beToNat v4) ++ key_bytes ++ value_bytes
      let read_checksum := crcX25 entry_bytes
      if checksum ≠ read_checksum then
        .error (.dataCorruption checksum read_checksum)
      else
        .ok (some (key_bytes,
          { file_id := file_id, value_len := beToNat v4, value_pos := pos5,
            timestamp := beToNat t8 }, pos6))

theorem readBytes_ok {bytes : List Nat} {pos n : Nat} {out : List Nat}
    {pos' : Nat} (h : readBytes bytes pos n = .ok (out, pos')) :
    pos' = pos + n ∧ pos + n ≤ bytes.length ∧ out = (bytes.drop pos).take n := by
  unfold readBytes at h
  split at h
  · cases h; exact ⟨rfl, by assumption, rfl⟩
  · cases h

theorem read_next_entry_pos_bounds {file_id : Nat} {bytes : List Nat}
    {pos : Nat} {k : Key} {e : Entry} {pos' : Nat}
    (h : read_next_entry file_id bytes pos = .ok (some (k, e, pos'))) :
    pos < pos' ∧ pos' ≤ bytes.length := by
  unfold read_next_entry at h
  split at h
  · cases h
  · split at h
    · cases h
    · split at h
      · cases h
      · split at h
        · cases h
        · split at h
          · cases h
          · split at h
            · cases h
            · split at h
              · cases h
              · rename_i x5 vb5 p5 h2 x4 vb4 p4 h8 x3 vb3 p3 hk4
                  x2 vb2 p2 hv4 x1 vb1 p1 hkey x0 vb0 p0 hval
                dsimp only at h
                split at h
                · cases h
                · cases h
                  obtain ⟨e2, _, _⟩ := readBytes_ok h2
                  obtain ⟨e8, _, _⟩ := readBytes_ok h8
                  obtain ⟨ek4, _, _⟩ := readBytes_ok hk4
                  obtain ⟨ev4, _, _⟩ := readBytes_ok hv4
                  obtain ⟨ekey, _, _⟩ := readBytes_ok hkey
                  obtain ⟨eval2, hval2, _⟩ := readBytes_ok hval
                  omega

/-- The recovery loop of `open`: read entries sequentially from `pos`
until end of file, collecting them in order. -/
def loadAux (file_id : Nat) (bytes : List Nat) (pos : Nat) :
    Except StorageError (List (Key × Entry)) :=
  match h : read_next_entry file_id bytes pos with
  | .error e => .error e
  | .ok none => .ok []
  | .ok (some (k, e, pos')) =>
    match loadAux file_id bytes pos' with
    | .error er => .error er
    | .ok rest => .ok ((k, e) :: rest)
termination_by bytes.length - pos
decreasing_by
  have hb := read_next_entry_pos_bounds h
  omega

/-- Parse a whole log file from the beginning. -/
def load_entries (file_id : Nat) (bytes : List Nat) :
    Except StorageError (List (Key × Entry)) :=
  loadAux file_id bytes 0

/-! ### The key directory

`crossbeam_skiplist::SkipMap<String, Entry>` is modelled as an
association list with insert-or-replace semantics.  The skip map
iterates in key order while the list keeps insertion order; no claim in
this file depends on the iteration order, only on the map semantics. -/

abbrev KeyDir := List (Key × Entry)

def kdLookup (kd : KeyDir) (k : Key) : Option Entry :=
  match kd with
  | [] => none
  | (k2, e) :: rest => if k2 = k then some e else kdLookup rest k

def kdInsert (kd : KeyDir) (k : Key) (e : Entry) : KeyDir :=
  match kd with
  | [] => [(k, e)]
  | (k2, e2) :: rest =>
    if k2 = k then (k2, e) :: rest else (k2, e2) :: kdInsert rest k e

def kdInsertAll (kd : KeyDir) (l : List (Key × Entry)) : KeyDir :=
  l.foldl (fun kd2 p => kdInsert kd2 p.1 p.2) kd

/-! ### The engine state and its operations -/

/-- The observable state of a `Bitcask` handle: the shared key
directory, the bytes of each log file (`files i` is the contents of
`<i>.log`; files that were never written or have been deleted are the
empty list), and the active file id. -/
structure BitcaskState where
  key_dir : KeyDir
  files : Nat → List Nat
  active_file_id : Nat

/-- The empty engine obtained by `open` on a fresh directory. -/
def freshState : BitcaskState :=
  { key_dir := [], files := fun _ => [], active_file_id := 0 }

/-- `Reader::read_value`: seek to `value_pos` in `<file_id>.log` and
read exactly `value_len` bytes. -/
def read_value (s : BitcaskState) (e : Entry) : Except StorageError Value :=
  match readBytes (s.files e.file_id) e.value_pos e.value_len with
  | .error er => .error er
  | .ok (v, _) => .ok v

/-- `Bitcask::get`. -/
def BitcaskState.get (s : BitcaskState) (key : Key) :
    Except StorageError (Option Value) :=
  match kdLookup s.key_dir key with
  | none => .ok none
  | some e =>
    if e.value_len = 0 then .ok none
    else
      match read_value s e with
      | .error er => .error er
      | .ok v => .ok (some v)

/-- `Bitcask::set`: append the record under the writer lock, rotate the
active file when `value_pos + value_len` exceeds `LOG_SIZE_THRESHOLD`,
then publish the entry in the key directory. -/
def BitcaskState.set (s : BitcaskState) (key value : List Nat) (ts : Nat) :
    BitcaskState :=
  let r := write_value (s.files s.active_file_id) s.active_file_id key value ts
  { key_dir := kdInsert s.key_dir key r.2,
    files := fun i => if i = s.active_file_id then r.1 else s.files i,
    active_file_id :=
      if r.2.value_pos + r.2.value_len > LOG_SIZE_THRESHOLD then
        s.active_file_id + 1
      else s.active_file_id }

/-- `Bitcask::remove`: error when the key has no directory entry at all
(the source checks only `is_none`), otherwise append a tombstone record
(the empty value) and publish the entry.  No rotation is performed. -/
def BitcaskState.remove (s : BitcaskState) (key : Key) (ts : Nat) :
    Except StorageError BitcaskState :=
  match kdLookup s.key_dir key with
  | none => .error .keyNotFound
  | some _ =>
    let r := write_value (s.files s.active_file_id) s.active_file_id key [] ts
    .ok { key_dir := kdInsert s.key_dir key r.2,
          files := fun i => if i = s.active_file_id then r.1 else s.files i,
          active_file_id := s.active_file_id }

/-- `Bitcask::list_keys`: keys whose entry is not a tombstone. -/
def BitcaskState.list_keys (s : BitcaskState) : List Key :=
  (s.key_dir.filter (fun p => p.2.value_len != 0)).map (fun p => p.1)

/-- The loop body of `compact`: dump every non-tombstone directory
entry into the merge file with id `cid`, updating the directory as we
go.  Tombstone entries are skipped (and stay in the directory). -/
def compactFold (s : BitcaskState) (cid : Nat) (ts : Nat) :
    List (Key × Entry) → List Nat → KeyDir →
      Except StorageError (List Nat × KeyDir)
  | [], mergeBytes, kd => .ok (mergeBytes, kd)
  | (k, e) :: rest, mergeBytes, kd =>
    if e.value_len = 0 then compactFold s cid ts rest mergeBytes kd
    else
      match read_value s e with
      | .error er => .error er
      | .ok v =>
        let r := write_value mergeBytes cid k v ts
        compactFold s cid ts rest r.1 (kdInsert kd k r.2)

/-- `Bitcask::compact`: under the writer lock, dump live entries into
`<active+1>.log` (the merge file), rotate the writer to `<active+2>.log`,
then delete every file with id below the merge file id.  The companion
hint-file bytes are not represented in `BitcaskState` (no claim here
depends on them).  `ts` stands for the clock readings used while
re-writing records. -/
def BitcaskState.compact (s : BitcaskState) (ts : Nat) :
    Except StorageError BitcaskState :=
  let cid := s.active_file_id + 1
  match compactFold s cid ts s.key_dir [] s.key_dir with
  | .error e => .error e
  | .ok (mergeBytes, kd2) =>
    .ok { key_dir := kd2,
          files := fun i =>
            if i = cid then mergeBytes
            else if i < cid then [] else s.files i,
          active_file_id := cid + 1 }

/-! ## Well-formed log files

A log file produced by the write path is a concatenation of encoded
records.  `Rec` is the abstract content of one record. -/

structure Rec where
  ts : Nat
  key : Key
  value : Value

/-- Well-formedness of a record as produced by the Rust write path:
key and value are byte strings (`u8` elements) whose lengths fit the
`u32` length fields. -/
def Rec.wf (r : Rec) : Prop :=
  r.key.length < 2 ^ 32 ∧ r.value.length < 2 ^ 32 ∧
    (∀ b ∈ r.key, b < 256) ∧ (∀ b ∈ r.value, b < 256)

def encodeRec (r : Rec) : List Nat := encodeRecord r.ts r.key r.value

def fileOf (rs : List Rec) : List Nat := (rs.map encodeRec).flatten

@[simp] theorem fileOf_nil : fileOf [] = [] := rfl

@[simp] theorem fileOf_cons (r : Rec) (rs : List Rec) :
    fileOf (r :: rs) = encodeRec r ++ fileOf rs := rfl

theorem fileOf_append (rs1 rs2 : List Rec) :
    fileOf (rs1 ++ rs2) = fileOf rs1 ++ fileOf rs2 := by
  simp [fileOf]

/-- The key-directory entry that both the write path and the recovery
parse produce for a record starting at byte offset `pos`. -/
def entryOf (fid pos : Nat) (r : Rec) : Entry :=
  { file_id := fid, value_len := r.value.length % 2 ^ 32,
    value_pos := pos + 18 + r.key.length, timestamp := r.ts % 2 ^ 64 }

/-- The `(key, entry)` pairs of a record list laid out from offset `pos`. -/
def entriesOf (fid : Nat) : Nat → List Rec → List (Key × Entry)
  | _, [] => []
  | pos, r :: rest =>
    (r.key, entryOf fid pos r) ::
      entriesOf fid (pos + (encodeRec r).length) rest

theorem encodeRec_length (r : Rec) :
    (encodeRec r).length = 18 + r.key.length + r.value.length :=
  encodeRecord_length r.ts r.key r.value

theorem encodeBody_bytes_lt (ts : Nat) (key value : List Nat)
    (hk : ∀ b ∈ key, b < 256) (hv : ∀ b ∈ value, b < 256) :
    ∀ b ∈ encodeBody ts key value, b < 256 := by
  intro b hb
  simp only [encodeBody, List.mem_append] at hb
  rcases hb with (((hb | hb) | hb) | hb) | hb
  · exact u64be_bytes_lt _ _ hb
  · exact u32be_bytes_lt _ _ hb
  · exact u32be_bytes_lt _ _ hb
  · exact hk _ hb
  · exact hv _ hb

/-- `write_value` rewritten through `encodeRec`/`entryOf`: the record is
appended at the end of the file and the returned entry is `entryOf` at
the old file length. -/
theorem write_value_eq (fileBytes : List Nat) (fid : Nat) (r : Rec)
    (hk : r.key.length < 2 ^ 32) :
    write_value fileBytes fid r.key r.value r.ts =
      (fileBytes ++ encodeRec r, entryOf fid fileBytes.length r) := by
  simp only [write_value, entryOf, encodeRec, Prod.mk.injEq, Entry.mk.injEq,
    List.length_append, encodeRecord_length, true_and, and_true]
  omega

/-! ### Parsing a valid record -/

theorem length_concat3 (pre mid suf : List Nat) :
    (pre ++ mid ++ suf).length = pre.length + mid.length + suf.length := by
  rw [List.length_append, List.length_append]

theorem drop_append_len (l1 l2 : List Nat) (n : Nat) (h : n ≤ l1.length) :
    (l1 ++ l2).drop n = l1.drop n ++ l2 := by
  conv_lhs => rw [← List.take_append_drop n l1]
  rw [List.append_assoc, List.drop_left' (by rw [List.length_take]; omega)]

theorem take_append_len (l1 l2 : List Nat) (n : Nat) (h : n ≤ l1.length) :
    (l1 ++ l2).take n = l1.take n := by
  conv_lhs => rw [← List.take_append_drop n l1, List.append_assoc]
  rw [List.take_left' (by rw [List.length_take]; omega)]

theorem readBytes_mid (pre mid suf : List Nat) (k n : Nat)
    (h : k + n ≤ mid.length) :
    readBytes (pre ++ mid ++ suf) (pre.length + k) n =
      .ok ((mid.drop k).take n, pre.length + k + n) := by
  unfold readBytes
  rw [if_pos (by rw [length_concat3]; omega)]
  simp only [Except.ok.injEq, Prod.mk.injEq, and_true]
  rw [List.append_assoc, ← List.drop_drop, List.drop_left,
      drop_append_len _ _ _ (by omega),
      take_append_len _ _ _ (by rw [List.length_drop]; omega)]

theorem readBytes_mid' (pre mid suf : List Nat) (p k n : Nat)
    (hp : p = pre.length + k) (h : k + n ≤ mid.length) :
    readBytes (pre ++ mid ++ suf) p n =
      .ok ((mid.drop k).take n, p + n) := by
  subst hp
  exact readBytes_mid pre mid suf k n h

/-- Parsing a well-formed encoded record that starts at offset
`pre.length` succeeds and yields exactly the key and the entry that the
write path published for it. -/
theorem read_next_entry_encode (fid : Nat) (pre suf : List Nat) (r : Rec)
    (hwf : r.wf) :
    read_next_entry fid (pre ++ encodeRec r ++ suf) pre.length =
      .ok (some (r.key, entryOf fid pre.length r,
                 pre.length + (encodeRec r).length)) := by
  obtain ⟨hkl, hvl, hkb, hvb⟩ := hwf
  have hlen := encodeRec_length r
  have hbody : ∀ b ∈ encodeBody r.ts r.key r.value, b < 256 :=
    encodeBody_bytes_lt _ _ _ hkb hvb
  have hcrc : crcX25 (encodeBody r.ts r.key r.value) < 2 ^ 16 :=
    crcX25_lt _ hbody
  have hne : ¬(pre.length = (pre ++ encodeRec r ++ suf).length) := by
    rw [length_concat3]; omega
  have h0 : readBytes (pre ++ encodeRec r ++ suf) pre.length 2 =
      .ok (u16be (crcX25 (encodeBody r.ts r.key r.value)), pre.length + 2) := by
    have hs : ((encodeRec r).drop 0).take 2 =
        u16be (crcX25 (encodeBody r.ts r.key r.value)) := by
      simp [encodeRec, encodeRecord, u16be]
    have := readBytes_mid' pre (encodeRec r) suf pre.length 0 2
      (by omega) (by omega)
    rwa [hs] at this
  have h1 : readBytes (pre ++ encodeRec r ++ suf) (pre.length + 2) 8 =
      .ok (u64be r.ts, pre.length + 2 + 8) := by
    have hs : ((encodeRec r).drop 2).take 8 = u64be r.ts := by
      simp [encodeRec, encodeRecord, encodeBody, u16be, u64be]
    have := readBytes_mid' pre (encodeRec r) suf (pre.length + 2) 2 8
      rfl (by omega)
    rwa [hs] at this
  have h2 : readBytes (pre ++ encodeRec r ++ suf) (pre.length + 2 + 8) 4 =
      .ok (u32be r.key.length, pre.length + 2 + 8 + 4) := by
    have hs : ((encodeRec r).drop 10).take 4 = u32be r.key.length := by
      simp [encodeRec, encodeRecord, encodeBody, u16be, u64be, u32be]
    have := readBytes_mid' pre (encodeRec r) suf (pre.length + 2 + 8) 10 4
      (by omega) (by omega)
    rwa [hs] at this
  have h3 : readBytes (pre ++ encodeRec r ++ suf) (pre.length + 2 + 8 + 4) 4 =
      .ok (u32be r.value.length, pre.length + 2 + 8 + 4 + 4) := by
    have hs : ((encodeRec r).drop 14).take 4 = u32be r.value.length := by
      simp [encodeRec, encodeRecord, encodeBody, u16be, u64be, u32be]
    have := readBytes_mid' pre (encodeRec r) suf (pre.length + 2 + 8 + 4) 14 4
      (by omega) (by omega)
    rwa [hs] at this
  have h4 : readBytes (pre ++ encodeRec r ++ suf) (pre.length + 2 + 8 + 4 + 4)
      r.key.length =
      .ok (r.key, pre.length + 2 + 8 + 4 + 4 + r.key.length) := by
    have hs : ((encodeRec r).drop 18).take r.key.length = r.key := by
      have hd : (encodeRec r).drop 18 = r.key ++ r.value := by
        simp [encodeRec, encodeRecord, encodeBody, u16be, u64be, u32be]
      rw [hd, List.take_left]
    have := readBytes_mid' pre (encodeRec r) suf
      (pre.length + 2 + 8 + 4 + 4) 18 r.key.length (by omega) (by omega)
    rwa [hs] at this
  have h5 : readBytes (pre ++ encodeRec r ++ suf)
      (pre.length + 2 + 8 + 4 + 4 + r.key.length) r.value.length =
      .ok (r.value,
           pre.length + 2 + 8 + 4 + 4 + r.key.length + r.value.length) := by
    have hs : ((encodeRec r).drop (18 + r.key.length)).take r.value.length =
        r.value := by
      have hd : (encodeRec r).drop (18 + r.key.length) = r.value := by
        rw [← List.drop_drop]
        have hd18 : (encodeRec r).drop 18 = r.key ++ r.value := by
          simp [encodeRec, encodeRecord, encodeBody, u16be, u64be, u32be]
        rw [hd18, List.drop_left]
      rw [hd, List.take_length]
    have := readBytes_mid' pre (encodeRec r) suf
      (pre.length + 2 + 8 + 4 + 4 + r.key.length) (18 + r.key.length)
      r.value.length (by omega) (by omega)
    rwa [hs] at this
  simp only [read_next_entry, hne, if_false, h0, h1, h2, h3, h4, h5,
    beToNat_u16be, beToNat_u32be, beToNat_u64be,
    Nat.mod_eq_of_lt hkl, Nat.mod_eq_of_lt hvl, Nat.mod_eq_of_lt hcrc,
    u64be_mod, u32be_mod]
  rw [if_neg (by
    intro hcc
    exact hcc (by rw [encodeBody]))]
  simp only [Except.ok.injEq, Option.some.injEq, Prod.mk.injEq,
    Entry.mk.injEq, entryOf, true_and]
  refine ⟨⟨?_, trivial⟩, ?_⟩ <;> omega

/-! ### Unfolding lemmas for the recovery loop -/

theorem loadAux_eq_error {fid : Nat} {bytes : List Nat} {pos : Nat}
    {er : StorageError} (h : read_next_entry fid bytes pos = .error er) :
    loadAux fid bytes pos = .error er := by
  unfold loadAux
  split
  · rename_i heq; rw [h] at heq; cases heq; rfl
  · rename_i heq; rw [h] at heq; cases heq
  · rename_i k2 e2 pos2 heq; rw [h] at heq; cases heq

theorem loadAux_eq_nil {fid : Nat} {bytes : List Nat} {pos : Nat}
    (h : read_next_entry fid bytes pos = .ok none) :
    loadAux fid bytes pos = .ok [] := by
  unfold loadAux
  split
  · rename_i heq; rw [h] at heq; cases heq
  · rfl
  · rename_i k2 e2 pos2 heq; rw [h] at heq; cases heq

theorem loadAux_eq_cons {fid : Nat} {bytes : List Nat} {pos : Nat}
    {k : Key} {e : Entry} {pos' : Nat}
    (h : read_next_entry fid bytes pos = .ok (some (k, e, pos'))) :
    loadAux fid bytes pos =
      Except.map (fun rest => (k, e) :: rest) (loadAux fid bytes pos') := by
  cases hres : loadAux fid bytes pos' with
  | error er =>
    unfold loadAux
    split
    · rename_i heq; rw [h] at heq; cases heq
    · rename_i heq; rw [h] at heq; cases heq
    · rename_i k2 e2 pos2 heq
      rw [h] at heq; cases heq
      rw [hres]
      rfl
  | ok rest =>
    unfold loadAux
    split
    · rename_i heq; rw [h] at heq; cases heq
    · rename_i heq; rw [h] at heq; cases heq
    · rename_i k2 e2 pos2 heq
      rw [h] at heq; cases heq
      rw [hres]
      rfl

theorem read_next_entry_at_end (fid : Nat) (bytes : List Nat) :
    read_next_entry fid bytes bytes.length = .ok none := by
  unfold read_next_entry
  rw [if_pos rfl]

/-- Parsing a concatenation of well-formed records laid out after a
prefix: the loop emits their entries in order and then continues at the
position right after them. -/
theorem loadAux_chain (fid : Nat) (tail : List Nat) (rs : List Rec)
    (hwf : ∀ r ∈ rs, r.wf) :
    ∀ pre : List Nat,
    loadAux fid (pre ++ fileOf rs ++ tail) pre.length =
      Except.map (fun rest => entriesOf fid pre.length rs ++ rest)
        (loadAux fid (pre ++ fileOf rs ++ tail)
          (pre.length + (fileOf rs).length)) := by
  induction rs with
  | nil =>
    intro pre
    simp only [fileOf_nil, List.length_nil, Nat.add_zero, entriesOf,
      List.nil_append]
    cases loadAux fid (pre ++ [] ++ tail) pre.length <;> simp [Except.map]
  | cons r rs ih =>
    intro pre
    have hr : r.wf := hwf r (by simp)
    have hrs : ∀ r2 ∈ rs, r2.wf := fun r2 hm => hwf r2 (by simp [hm])
    have hB : pre ++ fileOf (r :: rs) ++ tail =
        pre ++ encodeRec r ++ (fileOf rs ++ tail) := by
      simp [fileOf_cons, List.append_assoc]
    rw [hB]
    rw [loadAux_eq_cons (read_next_entry_encode fid pre (fileOf rs ++ tail)
      r hr)]
    have hIH := ih hrs (pre ++ encodeRec r)
    simp only [List.append_assoc, List.length_append, Nat.add_assoc] at hIH ⊢
    rw [hIH]
    simp only [fileOf_cons, List.length_append, Nat.add_assoc, entriesOf,
      List.cons_append]
    cases loadAux fid (pre ++ (encodeRec r ++ (fileOf rs ++ tail)))
        (pre.length + ((encodeRec r).length + (fileOf rs).length)) <;>
      simp [Except.map]

/-! ### Key-directory lemmas -/

theorem kdLookup_insert_self (kd : KeyDir) (k : Key) (e : Entry) :
    kdLookup (kdInsert kd k e) k = some e := by
  induction kd with
  | nil => simp [kdInsert, kdLookup]
  | cons p rest ih =>
    by_cases h : p.1 = k
    · simp [kdInsert, kdLookup, h]
    · simp [kdInsert, kdLookup, h, ih]

theorem kdLookup_insert_ne (kd : KeyDir) (k k2 : Key) (e : Entry)
    (h : k ≠ k2) : kdLookup (kdInsert kd k e) k2 = kdLookup kd k2 := by
  induction kd with
  | nil => simp [kdInsert, kdLookup, h]
  | cons p rest ih =>
    by_cases h2 : p.1 = k
    · subst h2
      simp [kdInsert, kdLookup, h]
    · by_cases h3 : p.1 = k2 <;>
        simp [kdInsert, kdLookup, h2, h3, ih, Ne.symm h]

theorem kdInsertAll_nil (kd : KeyDir) : kdInsertAll kd [] = kd := rfl

theorem kdInsertAll_append (kd : KeyDir) (l1 l2 : List (Key × Entry)) :
    kdInsertAll kd (l1 ++ l2) = kdInsertAll (kdInsertAll kd l1) l2 := by
  simp [kdInsertAll, List.foldl_append]

theorem kdInsertAll_concat (kd : KeyDir) (l : List (Key × Entry))
    (k : Key) (e : Entry) :
    kdInsertAll kd (l ++ [(k, e)]) = kdInsert (kdInsertAll kd l) k e := by
  rw [kdInsertAll_append]; rfl

/-! ### entriesOf lemmas -/

theorem entriesOf_append (fid : Nat) (rs1 rs2 : List Rec) :
    ∀ pos, entriesOf fid pos (rs1 ++ rs2) =
      entriesOf fid pos rs1 ++
        entriesOf fid (pos + (fileOf rs1).length) rs2 := by
  induction rs1 with
  | nil => intro pos; simp [entriesOf]
  | cons r rs ih =>
    intro pos
    simp only [List.cons_append, entriesOf, fileOf_cons, List.length_append,
      List.append_eq]
    rw [ih, Nat.add_assoc]

/-- The value bytes of a record are recoverable from the encoded
record by slicing at the entry's value position. -/
theorem encodeRec_drop_value (r : Rec) :
    (encodeRec r).drop (18 + r.key.length) = r.value := by
  rw [← List.drop_drop]
  have hd18 : (encodeRec r).drop 18 = r.key ++ r.value := by
    simp [encodeRec, encodeRecord, encodeBody, u16be, u64be, u32be]
  rw [hd18, List.drop_left]

/-- Slices within the original prefix survive appends to a file. -/
theorem slice_append (A B : List Nat) (p n : Nat) (h : p + n ≤ A.length) :
    ((A ++ B).drop p).take n = (A.drop p).take n := by
  rw [drop_append_len _ _ _ (by omega),
      take_append_len _ _ _ (by rw [List.length_drop]; omega)]

/-! ### Recovery: loading the key directory from the log files -/

/-- The recovery loop of `open` over the ascending list of log file
ids: parse each file and fold its entries into the key directory. -/
def loadKeyDir (files : Nat → List Nat) :
    List Nat → KeyDir → Except StorageError KeyDir
  | [], kd => .ok kd
  | id :: rest, kd =>
    match load_entries id (files id) with
    | .error e => .error e
    | .ok entries => loadKeyDir files rest (kdInsertAll kd entries)

theorem load_entries_fileOf (fid : Nat) (rs : List Rec)
    (hwf : ∀ r ∈ rs, r.wf) :
    load_entries fid (fileOf rs) = .ok (entriesOf fid 0 rs) := by
  have hchain := loadAux_chain fid [] rs hwf []
  simp only [List.nil_append, List.append_nil, List.length_nil,
    Nat.zero_add] at hchain
  have hend : loadAux fid (fileOf rs) (fileOf rs).length = .ok [] :=
    loadAux_eq_nil (read_next_entry_at_end fid (fileOf rs))
  rw [hend] at hchain
  simpa [load_entries, Except.map] using hchain

/-! ### The directory scan of `open` (file-id selection) -/

inductive FileExt where
  | log
  | hint
  deriving DecidableEq, Repr

/-- One directory entry whose stem parsed as a `u64`: the stem and the
extension. -/
structure DirEntry where
  stem : Nat
  ext : FileExt
  deriving DecidableEq, Repr

/-- The scan loop of `open`: fold over the directory entries keeping
the highest hint stem seen so far and the log stems in directory
order. -/
def scanDir (dir : List DirEntry) : Option Nat × List Nat :=
  dir.foldl
    (fun acc ent =>
      match ent.ext with
      | .log => (acc.1, acc.2 ++ [ent.stem])
      | .hint =>
        match acc.1 with
        | none => (some ent.stem, acc.2)
        | some h => (if ent.stem > h then some ent.stem else some h, acc.2))
    (none, [])

/-- `log_files` after the filter and sort in `open`: log ids strictly
above the hint id (all of them when no hint exists), ascending. -/
def openLogIds (dir : List DirEntry) : List Nat :=
  ((scanDir dir).2.filter (fun i =>
      match (scanDir dir).1 with
      | none => true
      | some h => decide (i > h))).mergeSort (fun a b => decide (a ≤ b))

/-- The active-file-id selection of `open`:
`match (log_files.last(), hint_file)`. -/
def openActive (dir : List DirEntry) : Nat :=
  match (openLogIds dir).getLast?, (scanDir dir).1 with
  | some last, _ => last
  | none, some h => h + 1
  | none, none => 0

/-- `Bitcask::open` on a directory that contains no hint files (the
hint branch of `open` is skipped): reconstruct the key directory by
scanning the log files ascending, then select the active file. -/
def openLogOnly (dir : List DirEntry) (files : Nat → List Nat) :
    Except StorageError BitcaskState :=
  match loadKeyDir files (openLogIds dir) [] with
  | .error e => .error e
  | .ok kd =>
    .ok { key_dir := kd, files := files, active_file_id := openActive dir }

/-- The directory listing left on disk by a run that started from a
fresh directory and performed only writes: `0.log` … `<active>.log`,
no hint files. -/
def freshDirListing (active : Nat) : List DirEntry :=
  (List.range (active + 1)).map (fun i => { stem := i, ext := .log })

/-! ### Runs of `set` operations from a fresh directory -/

structure SetOp where
  key : Key
  value : Value
  ts : Nat

def SetOp.rec2 (op : SetOp) : Rec := { ts := op.ts, key := op.key, value := op.value }

def SetOp.wf (op : SetOp) : Prop := op.rec2.wf

def runSets (ops : List SetOp) : BitcaskState :=
  ops.foldl (fun s op => s.set op.key op.value op.ts) freshState

/-- The value of the most recent `set` for key `k` in the sequence. -/
def lastWritten (ops : List SetOp) (k : Key) : Option Value :=
  ((ops.filter (fun op => op.key == k)).getLast?).map SetOp.value

theorem lastWritten_append_eq (ops : List SetOp) (op : SetOp) :
    lastWritten (ops ++ [op]) op.key = some op.value := by
  unfold lastWritten
  rw [List.filter_append]
  simp [List.getLast?_concat]

theorem lastWritten_append_ne (ops : List SetOp) (op : SetOp) (k : Key)
    (h : op.key ≠ k) : lastWritten (ops ++ [op]) k = lastWritten ops k := by
  unfold lastWritten
  rw [List.filter_append]
  have hb : (op.key == k) = false := by
    simp only [beq_eq_false_iff_ne, ne_eq]
    exact h
  have hnil : List.filter (fun o => o.key == k) [op] = [] := by
    simp [List.filter_cons, hb]
  rw [hnil, List.append_nil]

/-! ### The run invariant

For a state reached from a fresh directory by a sequence of `set`
operations: each file is a concatenation of well-formed records, files
above the active one are empty, the key directory is exactly the fold
of all on-disk entries in file order (so recovery rebuilds it
verbatim), and each directory entry points at the bytes of the most
recent value written for its key. -/

def histKD (hist : Nat → List Rec) (active : Nat) : List (Key × Entry) :=
  ((List.range (active + 1)).map (fun i => entriesOf i 0 (hist i))).flatten

def SetsInv (ops : List SetOp) (s : BitcaskState) : Prop :=
  (∃ hist : Nat → List Rec,
     (∀ i, s.files i = fileOf (hist i)) ∧
     (∀ i, ∀ r ∈ hist i, r.wf) ∧
     (∀ i, s.active_file_id < i → hist i = []) ∧
     s.key_dir = kdInsertAll [] (histKD hist s.active_file_id)) ∧
  (∀ k, kdLookup s.key_dir k = none ↔ lastWritten ops k = none) ∧
  (∀ k e, kdLookup s.key_dir k = some e →
     ∃ v, lastWritten ops k = some v ∧
       e.value_len = v.length ∧
       e.file_id ≤ s.active_file_id ∧
       e.value_pos + v.length ≤ (s.files e.file_id).length ∧
       ((s.files e.file_id).drop e.value_pos).take v.length = v)

theorem setsInv_nil : SetsInv [] freshState := by
  refine ⟨⟨fun _ => [], fun i => rfl, ?_, fun i _ => rfl, ?_⟩, ?_, ?_⟩
  · intro i r h; cases h
  · rfl
  · intro k; simp [freshState, kdLookup, lastWritten]
  · intro k e h; simp [freshState, kdLookup] at h

theorem write_value_op (fileBytes : List Nat) (fid : Nat) (op : SetOp)
    (h : op.key.length < 2 ^ 32) :
    write_value fileBytes fid op.key op.value op.ts =
      (fileBytes ++ encodeRec op.rec2, entryOf fid fileBytes.length op.rec2) :=
  write_value_eq fileBytes fid op.rec2 h

theorem drop_append_exact (A B : List Nat) (m : Nat) :
    (A ++ B).drop (A.length + m) = B.drop m := by
  rw [← List.drop_drop, List.drop_left]

theorem encodeRec_slice_value (A : List Nat) (r : Rec) :
    ((A ++ encodeRec r).drop (A.length + 18 + r.key.length)).take
      r.value.length = r.value := by
  have h1 : A.length + 18 + r.key.length = A.length + (18 + r.key.length) := by
    omega
  rw [h1, drop_append_exact, encodeRec_drop_value, List.take_length]

theorem histKD_succ (hist : Nat → List Rec) (n : Nat) :
    histKD hist (n + 1) =
      histKD hist n ++ entriesOf (n + 1) 0 (hist (n + 1)) := by
  simp [histKD, List.range_succ]

theorem histKD_congr (hist hist2 : Nat → List Rec) (n : Nat)
    (h : ∀ i ≤ n, hist i = hist2 i) : histKD hist n = histKD hist2 n := by
  unfold histKD
  congr 1
  apply List.map_congr_left
  intro i hi
  rw [h i (by simpa [Nat.lt_succ_iff] using List.mem_range.mp hi)]

theorem setsInv_step (ops : List SetOp) (s : BitcaskState) (op : SetOp)
    (hop : op.wf) (hInv : SetsInv ops s) :
    SetsInv (ops ++ [op]) (s.set op.key op.value op.ts) := by
  obtain ⟨⟨hist, hfiles, hwfh, hempty, hkd⟩, hC, hD⟩ := hInv
  obtain ⟨hkl, hvl, hkb, hvb⟩ := hop
  have hkl2 : op.key.length < 2 ^ 32 := hkl
  have hvl2 : op.value.length < 2 ^ 32 := hvl
  simp only [BitcaskState.set, write_value_op _ _ op hkl]
  refine ⟨⟨fun i => if i = s.active_file_id
      then hist s.active_file_id ++ [op.rec2] else hist i, ?_, ?_, ?_, ?_⟩,
    ?_, ?_⟩
  · -- files are encodings of the history
    intro i
    dsimp only
    by_cases hi : i = s.active_file_id
    · subst hi
      simp [hfiles s.active_file_id, fileOf_append]
    · simp [hi, hfiles i]
  · -- all records well-formed
    intro i r hr
    dsimp only at hr
    by_cases hi : i = s.active_file_id
    · subst hi
      simp at hr
      rcases hr with hr | hr
      · exact hwfh _ r hr
      · subst hr; exact ⟨hkl, hvl, hkb, hvb⟩
    · rw [if_neg hi] at hr
      exact hwfh i r hr
  · -- files above the new active id are empty
    intro i hgt
    dsimp only at hgt ⊢
    have hgt2 : s.active_file_id < i := by
      split at hgt <;> omega
    rw [if_neg (by omega : ¬(i = s.active_file_id))]
    exact hempty i hgt2
  · -- the key directory is the fold of the on-disk entries
    dsimp only
    have hsnoc : histKD (fun i => if i = s.active_file_id
        then hist s.active_file_id ++ [op.rec2] else hist i)
          s.active_file_id =
        histKD hist s.active_file_id ++
          [(op.key, entryOf s.active_file_id
              (s.files s.active_file_id).length op.rec2)] := by
      unfold histKD
      rw [List.range_succ]
      rw [List.map_append, List.map_append, List.flatten_append,
        List.flatten_append]
      have hmap : List.map (fun i => entriesOf i 0
            (if i = s.active_file_id
             then hist s.active_file_id ++ [op.rec2] else hist i))
          (List.range s.active_file_id) =
          List.map (fun i => entriesOf i 0 (hist i))
            (List.range s.active_file_id) := by
        apply List.map_congr_left
        intro i hi
        have : ¬(i = s.active_file_id) := by
          have := List.mem_range.mp hi; omega
        rw [if_neg this]
      rw [hmap, List.append_assoc]
      congr 1
      simp only [List.map_cons, List.map_nil, List.flatten_cons,
        List.flatten_nil, List.append_nil, ite_true, if_pos rfl]
      rw [entriesOf_append]
      simp only [entriesOf, Nat.zero_add, hfiles s.active_file_id]
      rfl
    split
    · -- rotation: the new empty file contributes no entries
      rw [histKD_succ, hsnoc]
      have : entriesOf (s.active_file_id + 1) 0
          (if s.active_file_id + 1 = s.active_file_id
           then hist s.active_file_id ++ [op.rec2]
           else hist (s.active_file_id + 1)) = [] := by
        rw [if_neg (by omega), hempty (s.active_file_id + 1) (by omega)]
        rfl
      rw [this, List.append_nil, kdInsertAll_concat, ← hkd]
    · rw [hsnoc, kdInsertAll_concat, ← hkd]
  · -- lookup is none iff the key was never set
    intro k
    dsimp only
    by_cases hk : op.key = k
    · subst hk
      rw [kdLookup_insert_self, lastWritten_append_eq]
      simp
    · rw [kdLookup_insert_ne _ _ _ _ hk, lastWritten_append_ne _ _ _ hk]
      exact hC k
  · -- every entry points at the bytes of the most recent value
    intro k e hlook
    dsimp only at hlook ⊢
    by_cases hk : op.key = k
    · subst hk
      rw [kdLookup_insert_self] at hlook
      cases hlook
      refine ⟨op.value, lastWritten_append_eq ops op, ?_, ?_, ?_, ?_⟩
      · simp only [entryOf, SetOp.rec2]
        omega
      · dsimp only [entryOf]
        split <;> omega
      · simp only [entryOf, ite_true, if_pos rfl, List.length_append,
          encodeRec_length, SetOp.rec2]
        omega
      · simp only [entryOf, ite_true, if_pos rfl, SetOp.rec2]
        exact encodeRec_slice_value (s.files s.active_file_id) op.rec2
    · rw [kdLookup_insert_ne _ _ _ _ hk] at hlook
      obtain ⟨v, hlast, hlen, hfid, hread, hslice⟩ := hD k e hlook
      refine ⟨v, by rw [lastWritten_append_ne _ _ _ hk]; exact hlast,
        hlen, ?_, ?_, ?_⟩
      · split <;> omega
      · by_cases hf : e.file_id = s.active_file_id
        · rw [if_pos hf, List.length_append]
          have hread2 : e.value_pos + v.length ≤
              (s.files s.active_file_id).length := hf ▸ hread
          omega
        · rw [if_neg hf]
          exact hread
      · by_cases hf : e.file_id = s.active_file_id
        · rw [if_pos hf]
          have hread2 : e.value_pos + v.length ≤
              (s.files s.active_file_id).length := hf ▸ hread
          rw [slice_append _ _ _ _ hread2, ← hf]
          exact hslice
        · rw [if_neg hf]
          exact hslice

/-- The invariant holds for every run of `set` operations from a fresh
directory. -/
theorem runSets_inv (ops : List SetOp) (hwf : ∀ op ∈ ops, op.wf) :
    SetsInv ops (runSets ops) := by
  induction ops using List.reverseRecOn with
  | nil => exact setsInv_nil
  | append_singleton ops op ih =>
    have h1 : ∀ o ∈ ops, o.wf := fun o hm => hwf o (by simp [hm])
    have h2 : op.wf := hwf op (by simp)
    have hrun : runSets (ops ++ [op]) =
        (runSets ops).set op.key op.value op.ts := by
      unfold runSets
      rw [List.foldl_append]
      rfl
    rw [hrun]
    exact setsInv_step ops (runSets ops) op h2 (ih h1)

/-! ### Consequences of the invariant: reads -/

theorem setsInv_get_some (ops : List SetOp) (s : BitcaskState)
    (hInv : SetsInv ops s) (k : Key) (v : Value)
    (hlast : lastWritten ops k = some v) (hv : v ≠ []) :
    s.get k = .ok (some v) := by
  obtain ⟨_, hC, hD⟩ := hInv
  cases hlook : kdLookup s.key_dir k with
  | none =>
    rw [(hC k).mp hlook] at hlast
    cases hlast
  | some e =>
    obtain ⟨v2, hlast2, hlen, _, hread, hslice⟩ := hD k e hlook
    rw [hlast] at hlast2
    cases hlast2
    have hlen0 : ¬(e.value_len = 0) := by rw [hlen]; simpa using hv
    have hcond : e.value_pos + e.value_len ≤ (s.files e.file_id).length := by
      rw [hlen]; exact hread
    simp only [BitcaskState.get, hlook, if_neg hlen0, read_value, readBytes,
      if_pos hcond]
    rw [hlen, hslice]

theorem setsInv_get_none (ops : List SetOp) (s : BitcaskState)
    (hInv : SetsInv ops s) (k : Key)
    (hlast : lastWritten ops k = none) : s.get k = .ok none := by
  obtain ⟨_, hC, _⟩ := hInv
  have hlook : kdLookup s.key_dir k = none := (hC k).mpr hlast
  unfold BitcaskState.get
  rw [hlook]

theorem setsInv_get_tombstone (ops : List SetOp) (s : BitcaskState)
    (hInv : SetsInv ops s) (k : Key)
    (hlast : lastWritten ops k = some []) : s.get k = .ok none := by
  obtain ⟨_, hC, hD⟩ := hInv
  cases hlook : kdLookup s.key_dir k with
  | none =>
    unfold BitcaskState.get
    rw [hlook]
  | some e =>
    obtain ⟨v2, hlast2, hlen, _, _, _⟩ := hD k e hlook
    rw [hlast] at hlast2
    cases hlast2
    simp only [BitcaskState.get, hlook,
      if_pos (show e.value_len = 0 by simpa using hlen)]

/-! ### Key uniqueness in the directory and `list_keys` -/

def kdNodupKeys (kd : KeyDir) : Prop := (kd.map Prod.fst).Nodup

theorem kdInsert_keys_subset (kd : KeyDir) (k : Key) (e : Entry) :
    ∀ k2, k2 ∈ (kdInsert kd k e).map Prod.fst →
      k2 ∈ kd.map Prod.fst ∨ k2 = k := by
  induction kd with
  | nil => intro k2 h; simp [kdInsert] at h; simp [h]
  | cons p rest ih =>
    intro k2 h
    by_cases hp : p.1 = k
    · rw [kdInsert, if_pos hp] at h
      simp at h
      rcases h with h | h
      · simp [h]
      · left; simp [h]
    · rw [kdInsert, if_neg hp] at h
      simp at h
      rcases h with h | h
      · left; simp [h]
      · rcases ih k2 (by simpa using h) with h2 | h2
        · left; simp [h2]
        · right; exact h2

theorem kdInsert_nodup (kd : KeyDir) (k : Key) (e : Entry)
    (h : kdNodupKeys kd) : kdNodupKeys (kdInsert kd k e) := by
  induction kd with
  | nil => simp [kdInsert, kdNodupKeys]
  | cons p rest ih =>
    unfold kdNodupKeys at h
    simp only [List.map_cons, List.nodup_cons] at h
    by_cases hp : p.1 = k
    · unfold kdNodupKeys
      rw [kdInsert, if_pos hp]
      simp only [List.map_cons, List.nodup_cons]
      exact ⟨by simpa using h.1, h.2⟩
    · unfold kdNodupKeys
      rw [kdInsert, if_neg hp]
      simp only [List.map_cons, List.nodup_cons]
      refine ⟨?_, ih h.2⟩
      intro hmem
      rcases kdInsert_keys_subset rest k e p.1 hmem with h2 | h2
      · exact h.1 h2
      · exact hp h2

theorem kdInsertAll_nodup (l : List (Key × Entry)) :
    ∀ kd, kdNodupKeys kd → kdNodupKeys (kdInsertAll kd l) := by
  induction l with
  | nil => intro kd h; exact h
  | cons p rest ih =>
    intro kd h
    exact ih _ (kdInsert_nodup kd p.1 p.2 h)

theorem setsInv_nodup (ops : List SetOp) (s : BitcaskState)
    (hInv : SetsInv ops s) : kdNodupKeys s.key_dir := by
  obtain ⟨⟨hist, _, _, _, hkd⟩, _, _⟩ := hInv
  rw [hkd]
  exact kdInsertAll_nodup _ [] (by simp [kdNodupKeys])

theorem kdLookup_mem (kd : KeyDir) (k : Key) (e : Entry)
    (hlook : kdLookup kd k = some e) : (k, e) ∈ kd := by
  induction kd with
  | nil => cases hlook
  | cons p rest ih =>
    unfold kdLookup at hlook
    split at hlook
    · rename_i hp
      cases hlook
      have hpe : (k, p.2) = p := by rw [← hp]
      rw [hpe]
      exact List.mem_cons_self _ _
    · exact List.mem_cons.mpr (Or.inr (ih hlook))

theorem mem_kdLookup (kd : KeyDir) (k : Key) (e : Entry)
    (hnodup : kdNodupKeys kd) (hmem : (k, e) ∈ kd) :
    kdLookup kd k = some e := by
  induction kd with
  | nil => cases hmem
  | cons p rest ih =>
    unfold kdNodupKeys at hnodup
    simp only [List.map_cons, List.nodup_cons] at hnodup
    rcases List.mem_cons.mp hmem with h | h
    · subst h
      simp [kdLookup]
    · have hne : ¬(p.1 = k) := by
        intro hp
        exact hnodup.1 (hp ▸ (by
          exact List.mem_map_of_mem Prod.fst h))
      rw [kdLookup, if_neg hne]
      exact ih hnodup.2 h

/-- Membership in `list_keys` in terms of the directory lookup, for a
directory without duplicate keys. -/
theorem list_keys_mem_iff (s : BitcaskState) (hnodup : kdNodupKeys s.key_dir)
    (k : Key) :
    k ∈ s.list_keys ↔
      ∃ e, kdLookup s.key_dir k = some e ∧ e.value_len ≠ 0 := by
  unfold BitcaskState.list_keys
  constructor
  · intro h
    obtain ⟨p, hp, hpk⟩ := List.mem_map.mp h
    obtain ⟨hpmem, hpfil⟩ := List.mem_filter.mp hp
    refine ⟨p.2, ?_, by simpa using hpfil⟩
    subst hpk
    exact mem_kdLookup _ _ _ hnodup hpmem
  · rintro ⟨e, hlook, hne⟩
    exact List.mem_map.mpr ⟨(k, e),
      List.mem_filter.mpr ⟨kdLookup_mem _ _ _ hlook, by simpa⟩, rfl⟩

/-! ### Reopening a directory written by a fresh run -/

theorem scanDir_aux_logs (stems : List Nat) :
    ∀ acc : Option Nat × List Nat,
      (stems.map (fun i => ({ stem := i, ext := .log } : DirEntry))).foldl
        (fun acc ent =>
          match ent.ext with
          | .log => (acc.1, acc.2 ++ [ent.stem])
          | .hint =>
            match acc.1 with
            | none => (some ent.stem, acc.2)
            | some h => (if ent.stem > h then some ent.stem else some h,
                acc.2)) acc = (acc.1, acc.2 ++ stems) := by
  induction stems with
  | nil => intro acc; simp
  | cons i rest ih =>
    intro acc
    simp only [List.map_cons, List.foldl_cons]
    rw [ih]
    simp

theorem scanDir_fresh (n : Nat) :
    scanDir (freshDirListing n) = (none, List.range (n + 1)) := by
  unfold scanDir freshDirListing
  rw [scanDir_aux_logs (List.range (n + 1)) (none, [])]
  simp

theorem openLogIds_fresh (n : Nat) :
    openLogIds (freshDirListing n) = List.range (n + 1) := by
  unfold openLogIds
  rw [scanDir_fresh]
  simp only [List.filter_true]
  apply List.mergeSort_of_sorted
  exact (List.pairwise_le_range (n + 1)).imp (fun h => by simpa)

theorem openActive_fresh (n : Nat) : openActive (freshDirListing n) = n := by
  unfold openActive
  rw [openLogIds_fresh, List.range_succ, List.getLast?_concat]

theorem loadKeyDir_fold (files : Nat → List Nat) (hist : Nat → List Rec)
    (ids : List Nat)
    (h : ∀ i ∈ ids, files i = fileOf (hist i) ∧ ∀ r ∈ hist i, r.wf) :
    ∀ kd0, loadKeyDir files ids kd0 =
      .ok (kdInsertAll kd0
        ((ids.map (fun i => entriesOf i 0 (hist i))).flatten)) := by
  induction ids with
  | nil => intro kd0; simp [loadKeyDir, kdInsertAll]
  | cons id rest ih =>
    intro kd0
    obtain ⟨hfi, hwfi⟩ := h id (by simp)
    have hrest : ∀ i ∈ rest, files i = fileOf (hist i) ∧ ∀ r ∈ hist i, r.wf :=
      fun i hm => h i (by simp [hm])
    have hle : load_entries id (files id) = .ok (entriesOf id 0 (hist id)) := by
      rw [hfi]; exact load_entries_fileOf id (hist id) hwfi
    unfold loadKeyDir
    rw [hle]
    dsimp only
    rw [ih hrest]
    simp only [List.map_cons, List.flatten_cons]
    rw [kdInsertAll_append]

/-- Reopening the directory left by a fresh run reconstructs the exact
same engine state: the same key directory, the same files, the same
active file id. -/
theorem reopen_fresh_run (ops : List SetOp) (s : BitcaskState)
    (hInv : SetsInv ops s) :
    openLogOnly (freshDirListing s.active_file_id) s.files = .ok s := by
  obtain ⟨⟨hist, hfiles, hwfh, _, hkd⟩, _, _⟩ := hInv
  unfold openLogOnly
  rw [openLogIds_fresh, openActive_fresh]
  rw [loadKeyDir_fold s.files hist _ (fun i _ => ⟨hfiles i, hwfh i⟩) []]
  have hkd2 : kdInsertAll []
      (((List.range (s.active_file_id + 1)).map
        (fun i => entriesOf i 0 (hist i))).flatten) = s.key_dir := by
    rw [hkd]; rfl
  rw [hkd2]

instance (r : Rec) : Decidable r.wf := by
  unfold Rec.wf
  infer_instance

instance (op : SetOp) : Decidable op.wf := by
  unfold SetOp.wf Rec.wf
  infer_instance

theorem runSets_append (ops : List SetOp) (op : SetOp) :
    runSets (ops ++ [op]) = (runSets ops).set op.key op.value op.ts := by
  unfold runSets
  rw [List.foldl_append]
  rfl

/-! ## Claim C1 -/

set_option maxRecDepth 20000 in
/-- C1, counterexample: the claim quantifies over all `set` sequences
and all values, but after `set(k, "")` the call `get(k)` returns `None`
rather than `Some("")`: the zero-length value is written with
`value_len == 0`, the tombstone encoding.  Here `k` is the one-byte key
`[107]` ("k"). -/
theorem c1_counterexample :
    lastWritten [⟨[107], [], 0⟩] [107] = some [] ∧
    (runSets [⟨[107], [], 0⟩]).get [107] = .ok none ∧
    (runSets [⟨[107], [], 0⟩]).get [107] ≠ .ok (some []) := by
  refine ⟨by decide, ?_, ?_⟩
  · rfl
  · intro h
    have h2 : (Except.ok none :
        Except StorageError (Option Value)) = .ok (some []) := by
      rw [← h]; rfl
    cases h2

/-- C1 (amended): for every finite sequence of well-formed `set(k, v)`
operations executed against an engine opened on a fresh directory, and
for every key `k` whose most recent written value `v` is non-empty,
`get(k)` returns `Some(v)` — both on the engine that performed the
writes and on the engine obtained by re-opening the same directory
(which reconstructs the identical state).  The empty value must be
excluded: it is encoded as a tombstone (see C3). -/
theorem c1_round_trip (ops : List SetOp) (hwf : ∀ op ∈ ops, op.wf)
    (k : Key) (v : Value) (hlast : lastWritten ops k = some v)
    (hv : v ≠ []) :
    (runSets ops).get k = .ok (some v) ∧
    ∃ s2, openLogOnly (freshDirListing (runSets ops).active_file_id)
        (runSets ops).files = .ok s2 ∧ s2.get k = .ok (some v) := by
  have hInv := runSets_inv ops hwf
  exact ⟨setsInv_get_some _ _ hInv k v hlast hv,
    runSets ops, reopen_fresh_run ops _ hInv,
    setsInv_get_some _ _ hInv k v hlast hv⟩

set_option maxRecDepth 40000 in
/-- C1, witness: a concrete two-write run (`set k x; set k y`), checked
at the amended theorem. -/
theorem c1_witness :
    (runSets [⟨[107], [120], 1⟩, ⟨[107], [121], 2⟩]).get [107] =
      .ok (some [121]) ∧
    ∃ s2, openLogOnly
        (freshDirListing
          (runSets [⟨[107], [120], 1⟩, ⟨[107], [121], 2⟩]).active_file_id)
        (runSets [⟨[107], [120], 1⟩, ⟨[107], [121], 2⟩]).files = .ok s2 ∧
      s2.get [107] = .ok (some [121]) :=
  c1_round_trip [⟨[107], [120], 1⟩, ⟨[107], [121], 2⟩] (by decide)
    [107] [121] (by decide) (by decide)

/-! ## Claim C3 -/

/-- C3: after `set(k, "")`, the key directory holds an entry with
`value_len == 0` — exactly the tombstone encoding — so `get(k)` returns
`None` and `k` is not in `list_keys()`; and the same holds after
re-opening the directory. -/
theorem c3_empty_value_tombstone (ops : List SetOp)
    (hwf : ∀ op ∈ ops, op.wf) (k : Key) (ts : Nat)
    (hkl : k.length < 2 ^ 32) (hkb : ∀ b ∈ k, b < 256) :
    (∃ e, kdLookup ((runSets ops).set k [] ts).key_dir k = some e ∧
      e.value_len = 0) ∧
    ((runSets ops).set k [] ts).get k = .ok none ∧
    k ∉ ((runSets ops).set k [] ts).list_keys ∧
    ∃ s2, openLogOnly
        (freshDirListing ((runSets ops).set k [] ts).active_file_id)
        ((runSets ops).set k [] ts).files = .ok s2 ∧
      s2.get k = .ok none ∧ k ∉ s2.list_keys := by
  have hstep : (runSets ops).set k [] ts =
      runSets (ops ++ [⟨k, [], ts⟩]) := (runSets_append ops ⟨k, [], ts⟩).symm
  have hwf2 : ∀ op ∈ ops ++ [⟨k, [], ts⟩], op.wf := by
    intro op hm
    rcases List.mem_append.mp hm with hm | hm
    · exact hwf op hm
    · simp only [List.mem_singleton] at hm
      subst hm
      exact ⟨hkl, by simp [SetOp.rec2], hkb, by simp [SetOp.rec2]⟩
  have hInv := runSets_inv (ops ++ [⟨k, [], ts⟩]) hwf2
  have hlast : lastWritten (ops ++ [⟨k, [], ts⟩]) k = some [] :=
    lastWritten_append_eq ops ⟨k, [], ts⟩
  rw [hstep]
  obtain ⟨hstruct, hC, hD⟩ := hInv
  have hnotnone : ¬(kdLookup (runSets (ops ++ [⟨k, [], ts⟩])).key_dir k
      = none) := by
    intro hn
    rw [(hC k).mp hn] at hlast
    cases hlast
  have htomb : ∀ k2, k2 ∉ (runSets (ops ++ [⟨k, [], ts⟩])).list_keys ∨
      k2 ≠ k := by
    intro k2
    by_cases hk2 : k2 = k
    · subst hk2
      left
      intro hmem
      obtain ⟨e, hlook, hne0⟩ :=
        (list_keys_mem_iff _ (setsInv_nodup _ _ ⟨hstruct, hC, hD⟩) k2).mp hmem
      obtain ⟨v2, hlast2, hlen, _⟩ := hD k2 e hlook
      rw [hlast] at hlast2
      cases hlast2
      simp at hlen
      exact hne0 hlen
    · right; exact hk2
  have hnotin : k ∉ (runSets (ops ++ [⟨k, [], ts⟩])).list_keys := by
    rcases htomb k with h | h
    · exact h
    · exact absurd rfl h
  refine ⟨?_, ?_, hnotin, runSets (ops ++ [⟨k, [], ts⟩]),
    reopen_fresh_run _ _ ⟨hstruct, hC, hD⟩, ?_, hnotin⟩
  · cases hlook : kdLookup (runSets (ops ++ [⟨k, [], ts⟩])).key_dir k with
    | none => exact absurd hlook hnotnone
    | some e =>
      obtain ⟨v2, hlast2, hlen, _⟩ := hD k e hlook
      rw [hlast] at hlast2
      cases hlast2
      exact ⟨e, rfl, by simpa using hlen⟩
  · exact setsInv_get_tombstone _ _ ⟨hstruct, hC, hD⟩ k hlast
  · exact setsInv_get_tombstone _ _ ⟨hstruct, hC, hD⟩ k hlast

set_option maxRecDepth 40000 in
/-- C3, witness: a concrete run (`set k x; set k ""`). -/
theorem c3_witness :
    (∃ e, kdLookup ((runSets [⟨[107], [120], 1⟩]).set [107] [] 2).key_dir
        [107] = some e ∧ e.value_len = 0) ∧
    ((runSets [⟨[107], [120], 1⟩]).set [107] [] 2).get [107] = .ok none ∧
    [107] ∉ ((runSets [⟨[107], [120], 1⟩]).set [107] [] 2).list_keys ∧
    ∃ s2, openLogOnly
        (freshDirListing
          ((runSets [⟨[107], [120], 1⟩]).set [107] [] 2).active_file_id)
        ((runSets [⟨[107], [120], 1⟩]).set [107] [] 2).files = .ok s2 ∧
      s2.get [107] = .ok none ∧ [107] ∉ s2.list_keys :=
  c3_empty_value_tombstone [⟨[107], [120], 1⟩] (by decide) [107] 2
    (by decide) (by decide)

/-! ## Claim C8 -/

/-- C8: every record written by the shared write path consists of, in
order, a 2-byte big-endian CRC-16/IBM-SDLC checksum over all subsequent
bytes of the record, an 8-byte big-endian timestamp, a 4-byte
big-endian key length, a 4-byte big-endian value length, the key bytes,
then the value bytes; the `value_pos` stored in the returned entry is
the offset of the first value byte in the file (witnessed both by the
offset arithmetic and by reading the value back at `value_pos`).  Both
`set` and a successful `remove` append exactly such a record (`remove`
with the empty value). -/
theorem c8_record_format (s : BitcaskState) (key value : List Nat)
    (ts : Nat) (hk : key.length < 2 ^ 32) (e0 : Entry)
    (hlook : kdLookup s.key_dir key = some e0) :
    (write_value (s.files s.active_file_id) s.active_file_id key value
        ts).1 =
      s.files s.active_file_id ++
        u16be (crcX25 (u64be ts ++ u32be key.length ++ u32be value.length ++
          key ++ value)) ++
        (u64be ts ++ u32be key.length ++ u32be value.length ++ key ++
          value) ∧
    (write_value (s.files s.active_file_id) s.active_file_id key value
        ts).2.value_pos =
      (s.files s.active_file_id).length + 2 + 8 + 4 + 4 + key.length ∧
    ((write_value (s.files s.active_file_id) s.active_file_id key value
        ts).1.drop
      (write_value (s.files s.active_file_id) s.active_file_id key value
        ts).2.value_pos).take value.length = value ∧
    (s.set key value ts).files s.active_file_id =
      s.files s.active_file_id ++ encodeRecord ts key value ∧
    s.remove key ts = .ok
      { key_dir := kdInsert s.key_dir key
          (entryOf s.active_file_id (s.files s.active_file_id).length
            ⟨ts, key, []⟩),
        files := fun i => if i = s.active_file_id
          then s.files s.active_file_id ++ encodeRecord ts key []
          else s.files i,
        active_file_id := s.active_file_id } := by
  have hw := write_value_eq (s.files s.active_file_id) s.active_file_id
    ⟨ts, key, value⟩ hk
  have hw0 := write_value_eq (s.files s.active_file_id) s.active_file_id
    ⟨ts, key, []⟩ hk
  refine ⟨?_, ?_, ?_, ?_, ?_⟩
  · rw [hw]
    simp only [encodeRec, encodeRecord, encodeBody, List.append_assoc]
  · rw [hw]
    simp only [entryOf]
  · rw [hw]
    simp only [entryOf]
    exact encodeRec_slice_value (s.files s.active_file_id) ⟨ts, key, value⟩
  · simp only [BitcaskState.set]
    rw [hw]
    simp [encodeRec]
  · simp only [BitcaskState.remove, hlook]
    rw [hw0]
    simp only [encodeRec]

/-! ## Claim C2 -/

/-- Chain a second operation after a fallible one (for stating concrete
multi-step scenarios without naming intermediate states). -/
def thenRemove (x : Except StorageError BitcaskState) (k : Key) (ts : Nat) :
    Except StorageError BitcaskState :=
  match x with
  | .error e => .error e
  | .ok s => s.remove k ts

def thenCompact (x : Except StorageError BitcaskState) (ts : Nat) :
    Except StorageError BitcaskState :=
  match x with
  | .error e => .error e
  | .ok s => s.compact ts

set_option maxRecDepth 40000 in
/-- C2, counterexample: after `set k v; remove k`, the directory entry
for `k` is a tombstone (`value_len == 0`), yet a second `remove k`
returns `Ok` — not `KeyNotFound` — and appends another 19-byte
tombstone record (file length 39 → 58).  The source checks only
`is_none`, never the tombstone case. -/
theorem c2_counterexample :
    Except.map (fun s1 => (kdLookup s1.key_dir [107]).map Entry.value_len)
      ((freshState.set [107] [118] 0).remove [107] 1) = .ok (some 0) ∧
    Except.map (fun s2 => (s2.files 0).length)
      (thenRemove ((freshState.set [107] [118] 0).remove [107] 1) [107] 2) =
      .ok 58 := by
  constructor
  · rfl
  · rfl

/-- C2 (amended): `remove(k)` fails with `KeyNotFound` (appending
nothing — the state is unchanged) exactly when `k` has no entry at all
in the key directory.  When an entry exists — live or tombstone —
`remove` succeeds and appends a tombstone record, so removing an
already-tombstoned key succeeds instead of failing. -/
theorem c2_remove_keynotfound (s : BitcaskState) (k : Key) (ts : Nat) :
    (kdLookup s.key_dir k = none → s.remove k ts = .error .keyNotFound) ∧
    (kdLookup s.key_dir k ≠ none → s.remove k ts = .ok
      { key_dir := kdInsert s.key_dir k
          { file_id := s.active_file_id, value_len := 0,
            value_pos := (s.files s.active_file_id).length + 18 + k.length,
            timestamp := ts % 2 ^ 64 },
        files := fun i => if i = s.active_file_id
          then s.files s.active_file_id ++ encodeRecord ts k []
          else s.files i,
        active_file_id := s.active_file_id }) := by
  constructor
  · intro hnone
    simp only [BitcaskState.remove, hnone]
  · intro hsome
    cases hlook : kdLookup s.key_dir k with
    | none => exact absurd hlook hsome
    | some e =>
      have hlen : (s.files s.active_file_id ++ encodeRecord ts k []).length -
          ([] : List Nat).length =
          (s.files s.active_file_id).length + 18 + k.length := by
        rw [List.length_append, encodeRecord_length]
        simp
        omega
      simp only [BitcaskState.remove, hlook, write_value, hlen]
      simp [Except.ok.injEq, BitcaskState.mk.injEq, Entry.mk.injEq]

set_option maxRecDepth 40000 in
/-- C2, witness: `remove` on a fresh (empty) directory fails with
`KeyNotFound`; `remove` after a `set` succeeds and leaves the active
file id unchanged. -/
theorem c2_witness :
    freshState.remove [107] 0 = .error .keyNotFound ∧
    Except.map (fun s2 => s2.active_file_id)
      ((freshState.set [107] [118] 0).remove [107] 1) = .ok 0 := by
  constructor
  · exact (c2_remove_keynotfound freshState [107] 0).1 rfl
  · rw [(c2_remove_keynotfound (freshState.set [107] [118] 0) [107] 1).2
      (by decide)]
    rfl

/-! ## Claim C4 -/

theorem compactFold_file_id (s : BitcaskState) (cid ts : Nat) :
    ∀ (items : List (Key × Entry)) (mb : List Nat) (kd mb2kd2A : KeyDir)
      (mb2 : List Nat),
      compactFold s cid ts items mb kd = .ok (mb2, mb2kd2A) →
      ∀ k e2, kdLookup mb2kd2A k = some e2 →
        e2.file_id = cid ∨
        (kdLookup kd k = some e2 ∧
          ∀ e3, (k, e3) ∈ items → e3.value_len = 0) := by
  intro items
  induction items with
  | nil =>
    intro mb kd kd2 mb2 h k e2 hlook
    cases h
    exact Or.inr ⟨hlook, fun e3 hmem => absurd hmem (List.not_mem_nil _)⟩
  | cons p rest ih =>
    intro mb kd kd2 mb2 h k e2 hlook
    rw [compactFold] at h
    split at h
    · -- tombstone item: skipped
      rcases ih _ _ _ _ h k e2 hlook with hc | ⟨hkd, hall⟩
      · exact Or.inl hc
      · refine Or.inr ⟨hkd, ?_⟩
        intro e3 hmem
        rcases List.mem_cons.mp hmem with hmem | hmem
        · cases hmem
          assumption
        · exact hall e3 hmem
    · -- live item: re-written into the merge file
      split at h
      · cases h
      · rcases ih _ _ _ _ h k e2 hlook with hc | ⟨hkd, hall⟩
        · exact Or.inl hc
        · by_cases hk : p.1 = k
          · subst hk
            rw [kdLookup_insert_self] at hkd
            cases hkd
            left
            rfl
          · rw [kdLookup_insert_ne _ _ _ _ hk] at hkd
            refine Or.inr ⟨hkd, ?_⟩
            intro e3 hmem
            rcases List.mem_cons.mp hmem with hmem | hmem
            · exact absurd (congrArg Prod.fst hmem).symm hk
            · exact hall e3 hmem

set_option maxRecDepth 40000 in
/-- C4, counterexample: after `set k v; remove k; compact`, the
tombstone entry for `k` is still in the key directory and still
references file 0, although `target_id = 1` and every file with id
below 1 has been deleted: the claim "no directory entry references any
file with ID < target_id, tombstone entries included" is false —
`compact` skips tombstones without re-pointing or dropping them. -/
theorem c4_counterexample :
    Except.map
      (fun s2 => ((kdLookup s2.key_dir [107]).map
        (fun e => (e.file_id, e.value_len)), s2.active_file_id))
      (thenCompact ((freshState.set [107] [118] 0).remove [107] 1) 2) =
      .ok (some (0, 0), 2) := by
  rfl

/-- C4 (amended): when `compact` succeeds, every non-tombstone entry in
the key directory references exactly the merge file
`target_id = active_file_id + 1` — so deleting the files with lower ids
invalidates no live entry — but tombstone entries (`value_len == 0`)
are skipped by the merge loop and may keep referencing deleted files. -/
theorem c4_compact_live_entries (s : BitcaskState) (ts : Nat)
    (s2 : BitcaskState) (hc : s.compact ts = .ok s2) :
    s2.active_file_id = s.active_file_id + 2 ∧
    ∀ k e, kdLookup s2.key_dir k = some e → e.value_len ≠ 0 →
      e.file_id = s.active_file_id + 1 := by
  unfold BitcaskState.compact at hc
  dsimp only at hc
  split at hc
  · cases hc
  · rename_i mb2 kd2 heq
    cases hc
    refine ⟨rfl, ?_⟩
    intro k e hlook hne
    rcases compactFold_file_id s (s.active_file_id + 1) ts s.key_dir []
      s.key_dir kd2 mb2 heq k e hlook with hcid | ⟨hkd, hall⟩
    · exact hcid
    · exact absurd (hall e (kdLookup_mem _ _ _ hkd)) hne

set_option maxRecDepth 40000 in
/-- C4, witness: a concrete `set; compact` run: the new active file id
is `0 + 2`, via the amended theorem applied at the concrete state. -/
theorem c4_witness :
    Except.map (fun s2 => s2.active_file_id)
      ((freshState.set [107] [118] 0).compact 2) = .ok (0 + 2) := by
  cases hc : (freshState.set [107] [118] 0).compact 2 with
  | error e =>
    have hmap : Except.map (fun s2 => s2.active_file_id)
        ((freshState.set [107] [118] 0).compact 2) = .ok 2 := by rfl
    rw [hc] at hmap
    cases hmap
  | ok s2 =>
    have h := c4_compact_live_entries (freshState.set [107] [118] 0) 2 s2 hc
    simp only [Except.map]
    rw [h.1]
    rfl

/-! ## Claim C6 -/

/-- A state with one live key whose active log file is one byte short
of forcing the next 19-byte tombstone record past the 1 MiB rotation
threshold. -/
def c6s : BitcaskState :=
  { key_dir := [([107], ⟨0, 1, 19, 0⟩)],
    files := fun i => if i = 0 then List.replicate (2 ^ 20) 0 else [],
    active_file_id := 0 }

theorem c6s_active : c6s.active_file_id = 0 := rfl

theorem c6s_file : c6s.files 0 = List.replicate (2 ^ 20) 0 := by
  show (if (0 : Nat) = 0 then List.replicate (2 ^ 20) 0 else []) =
    List.replicate (2 ^ 20) 0
  rw [if_pos rfl]

theorem write_value_pos (f : List Nat) (fid : Nat) (k v : List Nat)
    (ts : Nat) :
    (write_value f fid k v ts).2.value_pos =
      (f ++ encodeRecord ts k v).length - v.length := rfl

theorem write_value_vlen (f : List Nat) (fid : Nat) (k v : List Nat)
    (ts : Nat) :
    (write_value f fid k v ts).2.value_len = v.length % 2 ^ 32 := rfl

theorem set_active (s : BitcaskState) (key value : List Nat) (ts : Nat) :
    (s.set key value ts).active_file_id =
      if (write_value (s.files s.active_file_id) s.active_file_id key
            value ts).2.value_pos +
          (write_value (s.files s.active_file_id) s.active_file_id key
            value ts).2.value_len > LOG_SIZE_THRESHOLD
      then s.active_file_id + 1 else s.active_file_id := rfl

theorem c6s_cond :
    (write_value (c6s.files 0) 0 [107] [] 5).2.value_pos +
      (write_value (c6s.files 0) 0 [107] [] 5).2.value_len >
      LOG_SIZE_THRESHOLD := by
  rw [c6s_file, write_value_pos, write_value_vlen, List.length_append,
    List.length_replicate, encodeRecord_length, LOG_SIZE_THRESHOLD,
    List.length_cons, List.length_nil]
  norm_num

/-- C6, counterexample: `remove` does not share the rotation step of
the write path.  In state `c6s` the appended tombstone record ends past
`LOG_SIZE_THRESHOLD` (its `value_pos + value_len` exceeds the
threshold, the condition under which the claim requires a rotation),
yet `remove` leaves `active_file_id` at 0, while `set` with the same
empty value in the same state rotates to 1. -/
theorem c6_counterexample :
    (write_value (c6s.files 0) 0 [107] [] 5).2.value_pos +
      (write_value (c6s.files 0) 0 [107] [] 5).2.value_len >
      LOG_SIZE_THRESHOLD ∧
    Except.map (fun s2 => s2.active_file_id) (c6s.remove [107] 5) =
      .ok 0 ∧
    (c6s.set [107] [] 5).active_file_id = 1 := by
  refine ⟨c6s_cond, ?_, ?_⟩
  · rfl
  · rw [set_active, c6s_active, if_pos c6s_cond]

/-- C6 (amended): only `set` performs the rotation check: after the
append, `set` rotates to `active_file_id + 1` exactly when
`value_pos + value_len` (equivalently, the new file length plus the
truncated value length minus the value length) exceeds
`LOG_SIZE_THRESHOLD`, before the entry is published.  `remove` shares
the writer and the append path — it appends a tombstone record to the
same active file — but performs no rotation check and never changes
`active_file_id`. -/
theorem c6_rotation (s : BitcaskState) (key value : List Nat) (ts : Nat) :
    ((s.set key value ts).active_file_id =
      if (s.files s.active_file_id).length + 18 + key.length +
          value.length % 2 ^ 32 > LOG_SIZE_THRESHOLD
      then s.active_file_id + 1 else s.active_file_id) ∧
    ((s.set key value ts).files s.active_file_id =
      s.files s.active_file_id ++ encodeRecord ts key value) ∧
    (kdLookup s.key_dir key ≠ none →
      Except.map (fun s2 => s2.active_file_id) (s.remove key ts) =
        .ok s.active_file_id ∧
      Except.map (fun s2 => s2.files s.active_file_id) (s.remove key ts) =
        .ok (s.files s.active_file_id ++ encodeRecord ts key [])) := by
  refine ⟨?_, ?_, ?_⟩
  · simp only [BitcaskState.set, write_value]
    have hc : ((s.files s.active_file_id ++ encodeRecord ts key value).length
          - value.length + value.length % 2 ^ 32 > LOG_SIZE_THRESHOLD) ↔
        ((s.files s.active_file_id).length + 18 + key.length +
          value.length % 2 ^ 32 > LOG_SIZE_THRESHOLD) := by
      rw [List.length_append, encodeRecord_length]
      omega
    rw [if_congr hc rfl rfl]
  · simp only [BitcaskState.set, write_value, ite_true, if_pos rfl]
  · intro hsome
    cases hlook : kdLookup s.key_dir key with
    | none => exact absurd hlook hsome
    | some e =>
      simp [BitcaskState.remove, hlook, write_value, Except.map]

/-- C6, witness: the amended theorem applied in state `c6s`: `set` of
the empty value rotates (condition exceeds the threshold), `remove`
appends the tombstone to file 0 but keeps `active_file_id = 0`. -/
theorem c6_witness :
    (c6s.set [107] [] 5).active_file_id = 1 ∧
    Except.map (fun s2 => s2.active_file_id) (c6s.remove [107] 5) =
      .ok 0 := by
  have h := c6_rotation c6s [107] [] 5
  have hcond : (c6s.files c6s.active_file_id).length + 18 +
      ([107] : List Nat).length + ([] : List Nat).length % 2 ^ 32 >
      LOG_SIZE_THRESHOLD := by
    rw [c6s_active, c6s_file, List.length_replicate, List.length_cons,
      List.length_nil, LOG_SIZE_THRESHOLD]
    norm_num
  constructor
  · rw [h.1, if_pos hcond, c6s_active]
  · exact (h.2.2 (by decide)).1

set_option maxRecDepth 40000 in
/-- C8, witness: the record format facts at a concrete state (one prior
write, so the file is 20 bytes long and the next value starts at
offset 39 = 20 + 2 + 8 + 4 + 4 + 1). -/
theorem c8_witness :
    ((freshState.set [107] [118] 0).set [107] [119] 3).files 0 =
      (freshState.set [107] [118] 0).files 0 ++
        encodeRecord 3 [107] [119] ∧
    (write_value ((freshState.set [107] [118] 0).files 0) 0 [107] [119]
        3).2.value_pos = 39 := by
  have h := c8_record_format (freshState.set [107] [118] 0) [107] [119] 3
    (by decide) ⟨0, 1, 19, 0⟩ (by decide)
  exact ⟨h.2.2.2.1, h.2.1.trans (by rfl)⟩

/-! ## Claim C7 -/

theorem getLast?_mem_list (l : List Nat) (x : Nat)
    (h : l.getLast? = some x) : x ∈ l := by
  induction l with
  | nil => cases h
  | cons a rest ih =>
    cases rest with
    | nil =>
      simp only [List.getLast?_singleton, Option.some.injEq] at h
      simp [h]
    | cons b rest2 =>
      rw [List.getLast?_cons_cons] at h
      exact List.mem_cons.mpr (Or.inr (ih h))

theorem sorted_le_getLast (l : List Nat) (hs : l.Pairwise (· ≤ ·))
    (x : Nat) (hx : x ∈ l) (last : Nat) (hl : l.getLast? = some last) :
    x ≤ last := by
  induction l with
  | nil => cases hx
  | cons a rest ih =>
    cases rest with
    | nil =>
      simp only [List.getLast?_singleton, Option.some.injEq] at hl
      simp only [List.mem_singleton] at hx
      omega
    | cons b rest2 =>
      rw [List.getLast?_cons_cons] at hl
      rcases List.mem_cons.mp hx with hx | hx
      · subst hx
        have hmem : last ∈ b :: rest2 := getLast?_mem_list _ _ hl
        exact (List.pairwise_cons.mp hs).1 last hmem
      · exact ih (List.pairwise_cons.mp hs).2 hx hl

/-- The scan loop folds the directory entries into (highest hint stem,
log stems in directory order). -/
theorem scanDir_spec (dir : List DirEntry) :
    ∀ acc : Option Nat × List Nat,
      dir.foldl
        (fun acc ent =>
          match ent.ext with
          | .log => (acc.1, acc.2 ++ [ent.stem])
          | .hint =>
            match acc.1 with
            | none => (some ent.stem, acc.2)
            | some h => (if ent.stem > h then some ent.stem else some h,
                acc.2)) acc =
      ((((dir.filter (fun ent => ent.ext == FileExt.hint)).map
          DirEntry.stem).foldl
        (fun o s => match o with
          | none => some s
          | some h => if s > h then some s else some h) acc.1),
       acc.2 ++ (dir.filter (fun ent => ent.ext == FileExt.log)).map
         DirEntry.stem) := by
  induction dir with
  | nil => intro acc; simp
  | cons ent rest ih =>
    intro acc
    rw [List.foldl_cons]
    cases hext : ent.ext with
    | log =>
      rw [ih]
      simp [List.filter_cons, hext]
    | hint =>
      rw [ih]
      simp only [List.filter_cons, hext]
      cases acc.1 with
      | none => simp
      | some h => simp

/-- The running-maximum fold over the hint stems returns `none` iff
there are no stems, and otherwise the maximum. -/
theorem hintMax_none (stems : List Nat) :
    stems.foldl (fun o s => match o with
      | none => some s
      | some h => if s > h then some s else some h) none = none ↔
    stems = [] := by
  cases stems with
  | nil => simp
  | cons a rest =>
    simp only [List.foldl_cons]
    constructor
    · intro h
      exfalso
      -- the accumulator stays `some` once set
      have haux : ∀ (l : List Nat) (h0 : Nat),
          l.foldl (fun o s => match o with
            | none => some s
            | some h2 => if s > h2 then some s else some h2) (some h0) ≠
            none := by
        intro l
        induction l with
        | nil => intro h0 hc; cases hc
        | cons b rest2 ih =>
          intro h0
          simp only [List.foldl_cons]
          split <;> apply ih
      exact haux rest a h
    · intro h; cases h

theorem hintMax_some (stems : List Nat) :
    ∀ (acc : Option Nat) (h : Nat),
      stems.foldl (fun o s => match o with
        | none => some s
        | some h2 => if s > h2 then some s else some h2) acc = some h →
      ((h ∈ stems ∨ acc = some h) ∧
        (∀ x ∈ stems, x ≤ h) ∧ (∀ a0, acc = some a0 → a0 ≤ h)) := by
  induction stems with
  | nil =>
    intro acc h hf
    simp only [List.foldl_nil] at hf
    exact ⟨Or.inr hf, by simp, fun a0 ha => by rw [ha] at hf; cases hf; omega⟩
  | cons s rest ih =>
    intro acc h hf
    rw [List.foldl_cons] at hf
    cases acc with
    | none =>
      obtain ⟨hmem, hall, hacc⟩ := ih (some s) h hf
      refine ⟨?_, ?_, fun a0 ha => by cases ha⟩
      · rcases hmem with hm | hm
        · exact Or.inl (List.mem_cons.mpr (Or.inr hm))
        · cases hm
          exact Or.inl (List.mem_cons.mpr (Or.inl rfl))
      · intro x hx
        rcases List.mem_cons.mp hx with hx | hx
        · subst hx; exact hacc x rfl
        · exact hall x hx
    | some a0 =>
      dsimp only at hf
      by_cases hgt : s > a0
      · rw [if_pos hgt] at hf
        obtain ⟨hmem, hall, hacc⟩ := ih (some s) h hf
        refine ⟨?_, ?_, ?_⟩
        · rcases hmem with hm | hm
          · exact Or.inl (List.mem_cons.mpr (Or.inr hm))
          · cases hm
            exact Or.inl (List.mem_cons.mpr (Or.inl rfl))
        · intro x hx
          rcases List.mem_cons.mp hx with hx | hx
          · subst hx; exact hacc x rfl
          · exact hall x hx
        · intro b0 hb
          cases hb
          have := hacc s rfl
          omega
      · rw [if_neg hgt] at hf
        obtain ⟨hmem, hall, hacc⟩ := ih (some a0) h hf
        refine ⟨?_, ?_, ?_⟩
        · rcases hmem with hm | hm
          · exact Or.inl (List.mem_cons.mpr (Or.inr hm))
          · exact Or.inr hm
        · intro x hx
          rcases List.mem_cons.mp hx with hx | hx
          · subst hx
            have := hacc a0 rfl
            omega
          · exact hall x hx
        · exact hacc

theorem scanDir_eq (dir : List DirEntry) :
    scanDir dir =
      ((((dir.filter (fun ent => ent.ext == FileExt.hint)).map
          DirEntry.stem).foldl
        (fun o s => match o with
          | none => some s
          | some h => if s > h then some s else some h) none),
       (dir.filter (fun ent => ent.ext == FileExt.log)).map
         DirEntry.stem) := by
  unfold scanDir
  rw [scanDir_spec dir (none, [])]
  simp

/-- C7: at `open`, `log_ids` is the ascending sequence of the `.log`
stems strictly greater than the highest `.hint` stem (all `.log` stems
when no hint exists — in particular the hint's companion merge file,
which shares the hint's stem, is excluded), and the active file id is
the maximum of `log_ids` when that list is non-empty, else
`hint_id + 1` when a hint exists, else `0`. -/
theorem c7_open_file_id_selection (dir : List DirEntry) :
    (openLogIds dir).Pairwise (· ≤ ·) ∧
    (∀ i, i ∈ openLogIds dir ↔
      (i ∈ (dir.filter (fun ent => ent.ext == FileExt.log)).map
          DirEntry.stem ∧
       ∀ h, (scanDir dir).1 = some h → i > h)) ∧
    ((scanDir dir).1 = none ↔
      (dir.filter (fun ent => ent.ext == FileExt.hint)).map
        DirEntry.stem = []) ∧
    (∀ h, (scanDir dir).1 = some h →
      h ∈ (dir.filter (fun ent => ent.ext == FileExt.hint)).map
          DirEntry.stem ∧
      ∀ x ∈ (dir.filter (fun ent => ent.ext == FileExt.hint)).map
          DirEntry.stem, x ≤ h) ∧
    (∀ last, (openLogIds dir).getLast? = some last →
      openActive dir = last ∧ last ∈ openLogIds dir ∧
      ∀ i ∈ openLogIds dir, i ≤ last) ∧
    (openLogIds dir = [] → ∀ h, (scanDir dir).1 = some h →
      openActive dir = h + 1) ∧
    (openLogIds dir = [] → (scanDir dir).1 = none → openActive dir = 0) := by
  have htrans : ∀ a b c : Nat, (fun a b : Nat => decide (a ≤ b)) a b →
      (fun a b : Nat => decide (a ≤ b)) b c →
      (fun a b : Nat => decide (a ≤ b)) a c := by
    intro a b c h1 h2
    simp only [decide_eq_true_eq] at h1 h2 ⊢
    omega
  have htotal : ∀ a b : Nat, ((fun a b : Nat => decide (a ≤ b)) a b ||
      (fun a b : Nat => decide (a ≤ b)) b a) = true := by
    intro a b
    simp only [Bool.or_eq_true, decide_eq_true_eq]
    omega
  have hsorted : (openLogIds dir).Pairwise (· ≤ ·) := by
    unfold openLogIds
    exact (List.sorted_mergeSort htrans htotal _).imp
      (fun hb => by simpa using hb)
  refine ⟨hsorted, ?_, ?_, ?_, ?_, ?_, ?_⟩
  · -- membership
    intro i
    unfold openLogIds
    rw [List.mem_mergeSort, List.mem_filter]
    rw [scanDir_eq]
    constructor
    · rintro ⟨hmem, hcond⟩
      refine ⟨hmem, ?_⟩
      intro h hh
      dsimp only at hh hcond
      rw [hh] at hcond
      simpa using hcond
    · rintro ⟨hmem, hcond⟩
      refine ⟨hmem, ?_⟩
      dsimp only
      cases hmax : ((dir.filter (fun ent => ent.ext ==
          FileExt.hint)).map DirEntry.stem).foldl
          (fun o s => match o with
            | none => some s
            | some h => if s > h then some s else some h) none with
      | none => simp
      | some h0 =>
        have := hcond h0 (by simpa using hmax)
        simpa using this
  · -- no hint iff no hint files
    rw [scanDir_eq]
    dsimp only
    exact hintMax_none _
  · -- the hint id is the maximum hint stem
    intro h hh
    rw [scanDir_eq] at hh
    simp only at hh
    obtain ⟨hmem, hall, _⟩ := hintMax_some _ none h hh
    refine ⟨?_, hall⟩
    rcases hmem with hm | hm
    · exact hm
    · cases hm
  · -- non-empty log list: active is the last = maximum
    intro last hlast
    have hactive : openActive dir = last := by
      unfold openActive
      rw [hlast]
    exact ⟨hactive, getLast?_mem_list _ _ hlast,
      fun i hi => sorted_le_getLast _ hsorted i hi last hlast⟩
  · -- empty log list, hint present
    intro hnil h hh
    unfold openActive
    rw [hnil, hh]
    rfl
  · -- empty log list, no hint
    intro hnil hnone
    unfold openActive
    rw [hnil, hnone]
    rfl

/-- C7, witness: a directory holding `2.hint` and its companion merge
file `2.log`: the merge file is excluded from `log_ids` (which is
empty) and the active id is `hint_id + 1 = 3`. -/
theorem c7_witness :
    openLogIds [⟨2, .hint⟩, ⟨2, .log⟩] = [] ∧
    openActive [⟨2, .hint⟩, ⟨2, .log⟩] = 3 ∧
    (2 : Nat) ∉ openLogIds [⟨2, .hint⟩, ⟨2, .log⟩] := by
  have hempty : openLogIds [⟨2, .hint⟩, ⟨2, .log⟩] = [] := by
    unfold openLogIds
    rw [show scanDir [⟨2, .hint⟩, ⟨2, .log⟩] = (some 2, [2]) from by rfl]
    simp
  have h := c7_open_file_id_selection [⟨2, .hint⟩, ⟨2, .log⟩]
  exact ⟨hempty, h.2.2.2.2.2.1 hempty 2 (by rfl), by simp [hempty]⟩

/-! ## Claim C9: the server's per-connection serve loop -/

/-- The request frames of `net.rs` (`Request`). -/
inductive Request where
  | get (key : List Nat)
  | set (key value : List Nat)
  | remove (key : List Nat)
  | list
  deriving DecidableEq, Repr

/-- The response frames of `net.rs` (`GetResponse`, `SetResponse`,
`RemoveResponse`, `ListResponse`; the serve loop only ever builds the
`Ok` variant of `ListResponse`). -/
inductive Response where
  | getOk (value : Option (List Nat))
  | getErr (msg : List Nat)
  | setOk
  | setErr (msg : List Nat)
  | removeOk
  | removeErr (msg : List Nat)
  | listOk (keys : List (List Nat))
  deriving DecidableEq, Repr

/-- An abstract storage engine (the `Storage` trait): each fallible
operation returns its result together with the successor state. -/
structure Engine (σ : Type) where
  get : σ → List Nat → Except StorageError (Option (List Nat)) × σ
  set : σ → List Nat → List Nat → Except StorageError Unit × σ
  remove : σ → List Nat → Except StorageError Unit × σ
  list_keys : σ → List (List Nat)

/-- What the serve loop sees on the socket: a successfully decoded
request frame (with the fate of the subsequent response write), or a
read/codec failure.  An exhausted list is EOF (the client closed). -/
inductive NetIn where
  | req (r : Request) (writeOk : Bool)
  | readErr
  deriving DecidableEq, Repr

/-- How the serve loop ended: clean EOF return, or a socket/codec
error propagated by `?`. -/
inductive ServeOutcome where
  | done
  | netErr
  deriving DecidableEq, Repr

/-- The bytes of the `"test: "` prefix that `serve` formats onto a
get-error message (`format!("test: {}", e)`). -/
def testMsg (m : List Nat) : List Nat :=
  [116, 101, 115, 116, 58, 32] ++ m

/-- One iteration of the match in `serve`: turn a request into the
response that is written back, threading the engine state.  An engine
error becomes the `Err` variant of the matching response type; `list`
cannot fail. -/
def handle {σ : Type} (eng : Engine σ) (errMsg : StorageError → List Nat)
    (s : σ) : Request → Response × σ
  | .get k =>
    match eng.get s k with
    | (.ok v, s2) => (.getOk v, s2)
    | (.error e, s2) => (.getErr (testMsg (errMsg e)), s2)
  | .set k v =>
    match eng.set s k v with
    | (.ok _, s2) => (.setOk, s2)
    | (.error e, s2) => (.setErr (errMsg e), s2)
  | .remove k =>
    match eng.remove s k with
    | (.ok _, s2) => (.removeOk, s2)
    | (.error e, s2) => (.removeErr (errMsg e), s2)
  | .list => (.listOk (eng.list_keys s), s)

/-- The `serve` loop: read a frame, answer it, continue; return `Ok`
at EOF; a read error or a failed response write ends the loop with the
error (`?` on the socket operation). -/
def serve {σ : Type} (eng : Engine σ) (errMsg : StorageError → List Nat)
    (s : σ) : List NetIn → ServeOutcome × σ × List Response
  | [] => (.done, s, [])
  | .readErr :: _ => (.netErr, s, [])
  | .req r wOk :: rest =>
    let p := handle eng errMsg s r
    if wOk then
      let q := serve eng errMsg p.2 rest
      (q.1, q.2.1, p.1 :: q.2.2)
    else (.netErr, p.2, [p.1])

theorem serve_netErr_source {σ : Type} (eng : Engine σ)
    (errMsg : StorageError → List Nat) :
    ∀ (msgs : List NetIn) (s : σ),
      (serve eng errMsg s msgs).1 = .netErr →
      NetIn.readErr ∈ msgs ∨ ∃ r, NetIn.req r false ∈ msgs := by
  intro msgs
  induction msgs with
  | nil => intro s h; cases h
  | cons ev rest ih =>
    intro s h
    cases ev with
    | readErr => exact Or.inl (List.mem_cons.mpr (Or.inl rfl))
    | req r wOk =>
      cases wOk with
      | false => exact Or.inr ⟨r, List.mem_cons.mpr (Or.inl rfl)⟩
      | true =>
        simp only [serve] at h
        rcases ih _ h with hm | ⟨r2, hm⟩
        · exact Or.inl (List.mem_cons.mpr (Or.inr hm))
        · exact Or.inr ⟨r2, List.mem_cons.mpr (Or.inr hm)⟩

/-- C9: in the serve loop, EOF returns success; an engine error for a
single get/set/remove becomes the `Err(message)` variant of the
matching response type (with the `"test: "` format prefix on get) and
the loop goes on serving the same connection with the request's
successor state; a read error ends the loop with an error and a failed
response write makes the loop report an error; and an erroneous
outcome only ever arises from a socket read error or a failed write,
never from an engine error. -/
theorem c9_serve_loop {σ : Type} (eng : Engine σ)
    (errMsg : StorageError → List Nat) (s s2 : σ)
    (rest msgs : List NetIn) (r : Request) (k v : List Nat)
    (e : StorageError) :
    serve eng errMsg s [] = (.done, s, []) ∧
    serve eng errMsg s (.readErr :: rest) = (.netErr, s, []) ∧
    (serve eng errMsg s (.req r false :: rest)).1 = .netErr ∧
    serve eng errMsg s (.req r true :: rest) =
      ((serve eng errMsg (handle eng errMsg s r).2 rest).1,
       (serve eng errMsg (handle eng errMsg s r).2 rest).2.1,
       (handle eng errMsg s r).1 ::
         (serve eng errMsg (handle eng errMsg s r).2 rest).2.2) ∧
    (eng.get s k = (.error e, s2) →
      handle eng errMsg s (.get k) = (.getErr (testMsg (errMsg e)), s2)) ∧
    (eng.set s k v = (.error e, s2) →
      handle eng errMsg s (.set k v) = (.setErr (errMsg e), s2)) ∧
    (eng.remove s k = (.error e, s2) →
      handle eng errMsg s (.remove k) = (.removeErr (errMsg e), s2)) ∧
    ((serve eng errMsg s msgs).1 = .netErr →
      NetIn.readErr ∈ msgs ∨ ∃ r2, NetIn.req r2 false ∈ msgs) := by
  refine ⟨rfl, rfl, rfl, rfl, ?_, ?_, ?_, serve_netErr_source eng errMsg msgs s⟩
  · intro h
    simp only [handle, h]
  · intro h
    simp only [handle, h]
  · intro h
    simp only [handle, h]

/-- A concrete two-key engine over an association-list state, used to
instantiate the serve-loop theorem: `get`/`remove` fail with
`keyNotFound` on a missing key, `set` always succeeds. -/
def c9eng : Engine (List (List Nat × List Nat)) :=
  { get := fun s k =>
      match (s.filter (fun p => p.1 == k)).head? with
      | some p => (.ok (some p.2), s)
      | none => (.error .keyNotFound, s),
    set := fun s k v => (.ok (), (k, v) :: s),
    remove := fun s k =>
      if (s.filter (fun p => p.1 == k)).isEmpty then
        (.error .keyNotFound, s)
      else (.ok (), s.filter (fun p => p.1 != k)),
    list_keys := fun s => s.map (fun p => p.1) }

/-- A concrete error renderer for the witness. -/
def c9msg : StorageError → List Nat
  | .keyNotFound => [75, 78, 70]
  | _ => [69]

/-- C9, witness: the serve-loop theorem applied to the concrete engine
on an empty state: a failing get produces the prefixed `Err` response
and the loop continues; EOF yields success; and the loop's outcome on
a trace with only successful writes and no read error is `done`. -/
theorem c9_witness :
    serve c9eng c9msg [] [] = (.done, [], []) ∧
    (c9eng.get [] [7] = (.error .keyNotFound, []) ∧
      handle c9eng c9msg [] (.get [7]) =
        (.getErr (testMsg (c9msg .keyNotFound)), [])) ∧
    serve c9eng c9msg [] [.req (.get [7]) true] =
      ((serve c9eng c9msg (handle c9eng c9msg [] (.get [7])).2 []).1,
       (serve c9eng c9msg (handle c9eng c9msg [] (.get [7])).2 []).2.1,
       (handle c9eng c9msg [] (.get [7])).1 ::
         (serve c9eng c9msg (handle c9eng c9msg [] (.get [7])).2 []).2.2) ∧
    (serve c9eng c9msg [] [.readErr]).1 = .netErr := by
  have h := c9_serve_loop c9eng c9msg [] [] [] [.readErr] (.get [7])
    [7] [] .keyNotFound
  exact ⟨h.1, ⟨rfl, h.2.2.2.2.1 rfl⟩, h.2.2.2.1, by rfl⟩

/-! ## Claim C10: the client connection pool -/

/-- The observable counters of the pool: handles currently handed out,
available semaphore permits, and idle connections in the queue. -/
structure PoolState where
  handedOut : Nat
  permits : Nat
  idle : Nat
  deriving DecidableEq, Repr

/-- The state transitions of `Pool::get` and `Object::drop` while the
pool is alive.  `Pool::get` first acquires a permit (so needs one
available), then pops an idle connection if any, else dials a new one;
on a successful get the permit is forgotten.  If dialing fails, the
`?` drops the un-forgotten permit, which releases it back — the state
is unchanged.  Dropping a live handle pushes the connection back and
adds exactly one permit. -/
inductive PoolStep : PoolState → PoolState → Prop where
  | acquireIdle (st : PoolState) (hp : 1 ≤ st.permits) (hi : 1 ≤ st.idle) :
      PoolStep st ⟨st.handedOut + 1, st.permits - 1, st.idle - 1⟩
  | acquireNew (st : PoolState) (hp : 1 ≤ st.permits) (hi : st.idle = 0) :
      PoolStep st ⟨st.handedOut + 1, st.permits - 1, 0⟩
  | acquireFailNew (st : PoolState) (hp : 1 ≤ st.permits)
      (hi : st.idle = 0) : PoolStep st st
  | dropAlive (st : PoolState) (hh : 1 ≤ st.handedOut) :
      PoolStep st ⟨st.handedOut - 1, st.permits + 1, st.idle + 1⟩

/-- States reachable from a freshly constructed pool: no handles, a
full semaphore of `maxSize` permits, an empty queue
(connections are created lazily). -/
inductive PoolReachable (maxSize : Nat) : PoolState → Prop where
  | init : PoolReachable maxSize ⟨0, maxSize, 0⟩
  | step (st st2 : PoolState) (h : PoolReachable maxSize st)
      (hs : PoolStep st st2) : PoolReachable maxSize st2

/-- C10: in every reachable pool state, handed-out handles plus
available permits equals `maxSize` — so at most `maxSize` handles are
out at once, with the idle queue never outgrowing the free permits —
and dropping a handle while the pool is alive is exactly the step that
returns its connection to the queue and adds one permit. -/
theorem c10_pool_invariant (maxSize : Nat) (st : PoolState)
    (h : PoolReachable maxSize st) :
    st.handedOut + st.permits = maxSize ∧
    st.handedOut ≤ maxSize ∧
    st.idle ≤ st.permits ∧
    (1 ≤ st.handedOut →
      PoolStep st ⟨st.handedOut - 1, st.permits + 1, st.idle + 1⟩) := by
  induction h with
  | init =>
    refine ⟨?_, ?_, ?_, fun hh => PoolStep.dropAlive _ hh⟩ <;>
      (dsimp only; omega)
  | step st st2 hreach hs ih =>
    obtain ⟨hsum, hle, hidle, _⟩ := ih
    refine ⟨?_, ?_, ?_, fun hh => PoolStep.dropAlive _ hh⟩ <;>
      ( cases hs with
        | acquireIdle hp hi => dsimp only; omega
        | acquireNew hp hi => dsimp only; omega
        | acquireFailNew hp hi => omega
        | dropAlive hh => dsimp only; omega )

/-- C10, witness: with `maxSize = 2`, after two successful acquires
(one dial failure in between) and one drop, the reachable state
`⟨1, 1, 1⟩` satisfies the invariant: `1 + 1 = 2`, at most two handles
out, and the queue not larger than the free permits. -/
theorem c10_witness :
    PoolReachable 2 ⟨1, 1, 1⟩ ∧
    (1 : Nat) + 1 = 2 ∧ (1 : Nat) ≤ 2 ∧ (1 : Nat) ≤ 1 := by
  have hreach : PoolReachable 2 ⟨1, 1, 1⟩ := by
    have h0 : PoolReachable 2 ⟨0, 2, 0⟩ := PoolReachable.init
    have h1 : PoolReachable 2 ⟨0, 2, 0⟩ :=
      PoolReachable.step _ _ h0
        (PoolStep.acquireFailNew ⟨0, 2, 0⟩ (by decide) rfl)
    have h2 : PoolReachable 2 ⟨1, 1, 0⟩ :=
      PoolReachable.step _ _ h1
        (PoolStep.acquireNew ⟨0, 2, 0⟩ (by decide) rfl)
    have h3 : PoolReachable 2 ⟨2, 0, 0⟩ :=
      PoolReachable.step _ _ h2
        (PoolStep.acquireNew ⟨1, 1, 0⟩ (by decide) rfl)
    exact PoolReachable.step _ _ h3
      (PoolStep.dropAlive ⟨2, 0, 0⟩ (by decide))
  have h := c10_pool_invariant 2 ⟨1, 1, 1⟩ hreach
  exact ⟨hreach, h.1, h.2.1, h.2.2.1⟩

/-! ## Claim C5: corruption detection at recovery -/

/-- Discriminator for the claim: the recovery result is a
`DataCorruption(stored, computed)` failure with a genuine mismatch. -/
def isDataCorruption : Except StorageError KeyDir → Bool
  | .error (.dataCorruption st cp) => st != cp
  | _ => false

theorem set_append_left (l1 l2 : List Nat) (n b : Nat)
    (h : n < l1.length) : (l1 ++ l2).set n b = l1.set n b ++ l2 := by
  rw [List.set_append, if_pos h]

theorem set_append_right (l1 l2 : List Nat) (n b : Nat)
    (h : l1.length ≤ n) :
    (l1 ++ l2).set n b = l1 ++ l2.set (n - l1.length) b := by
  rw [List.set_append, if_neg (by omega)]

theorem set_decomp (l : List Nat) (n b : Nat) (h : n < l.length) :
    l = l.take n ++ l.getD n 0 :: l.drop (n + 1) ∧
    l.set n b = l.take n ++ b :: l.drop (n + 1) := by
  refine ⟨?_, by rw [List.set_eq_take_append_cons_drop, if_pos h]⟩
  conv_lhs => rw [← List.take_append_drop n l]
  rw [List.drop_eq_getElem_cons h, List.getD_eq_getElem l 0 h]

theorem getD_mem_of_lt (l : List Nat) (n : Nat) (h : n < l.length) :
    l.getD n 0 ∈ l := by
  rw [List.getD_eq_getElem l 0 h]
  exact List.getElem_mem h

theorem set_bytes_lt (l : List Nat) (n b : Nat) (hl : ∀ x ∈ l, x < 256)
    (hb : b < 256) : ∀ x ∈ l.set n b, x < 256 := by
  intro x hx
  rcases List.mem_or_eq_of_mem_set hx with hm | he
  · exact hl x hm
  · omega

theorem beToNat_pair (a b : Nat) : beToNat [a, b] = a * 256 + b := by
  simp [beToNat]

/-- Altering either byte of the stored 2-byte checksum changes its
decoded value. -/
theorem u16be_set_ne (c o b2 : Nat) (hc : c < 2 ^ 16) (ho : o < 2)
    (hb2 : b2 ≠ (u16be c).getD o 0) :
    beToNat ((u16be c).set o b2) ≠ c := by
  have h3 : byteAt c 8 * 256 + byteAt c 0 = c := by
    have := beToNat_u16be c
    rw [Nat.mod_eq_of_lt hc] at this
    rw [show beToNat (u16be c) = byteAt c 8 * 256 + byteAt c 0 from
      beToNat_pair _ _] at this
    exact this
  interval_cases o
  · have h1 : (u16be c).set 0 b2 = [b2, byteAt c 0] := rfl
    have h2 : (u16be c).getD 0 0 = byteAt c 8 := rfl
    rw [h1, beToNat_pair]
    rw [h2] at hb2
    omega
  · have h1 : (u16be c).set 1 b2 = [byteAt c 8, b2] := rfl
    have h2 : (u16be c).getD 1 0 = byteAt c 0 := rfl
    rw [h1, beToNat_pair]
    rw [h2] at hb2
    omega

/-- Parsing a record whose stored checksum does not match the CRC of
its body fails with `DataCorruption(stored, computed)`.  The body is
given in parsed form (timestamp bytes, the two length fields encoding
the actual key/value lengths, key bytes, value bytes); the checksum
bytes `cb` are arbitrary. -/
theorem read_next_entry_corrupt (fid : Nat) (pre suf cb t8 K V : List Nat)
    (hcb : cb.length = 2) (ht8 : t8.length = 8)
    (ht8b : ∀ b ∈ t8, b < 256)
    (hK : K.length < 2 ^ 32) (hV : V.length < 2 ^ 32)
    (hmm : beToNat cb ≠
      crcX25 (t8 ++ u32be K.length ++ u32be V.length ++ K ++ V)) :
    read_next_entry fid
        (pre ++ (cb ++ (t8 ++ u32be K.length ++ u32be V.length ++ K ++ V))
          ++ suf) pre.length =
      .error (.dataCorruption (beToNat cb)
        (crcX25 (t8 ++ u32be K.length ++ u32be V.length ++ K ++ V))) := by
  have hu32K : (u32be K.length).length = 4 := rfl
  have hu32V : (u32be V.length).length = 4 := rfl
  have hmidlen :
      (cb ++ (t8 ++ u32be K.length ++ u32be V.length ++ K ++ V)).length =
        18 + K.length + V.length := by
    simp only [List.length_append, hcb, ht8, hu32K, hu32V]
    omega
  have hBassoc : t8 ++ u32be K.length ++ u32be V.length ++ K ++ V =
      t8 ++ (u32be K.length ++ (u32be V.length ++ (K ++ V))) := by
    simp [List.append_assoc]
  have hne0 : ¬(pre.length =
      (pre ++ (cb ++ (t8 ++ u32be K.length ++ u32be V.length ++ K ++ V))
        ++ suf).length) := by
    rw [length_concat3, hmidlen]
    omega
  have hd0 : ((cb ++ (t8 ++ u32be K.length ++ u32be V.length ++ K ++ V)).drop
      0).take 2 = cb := by
    rw [List.drop_zero, List.take_left' hcb]
  have hd2 : (cb ++ (t8 ++ u32be K.length ++ u32be V.length ++ K ++ V)).drop
      2 = t8 ++ (u32be K.length ++ (u32be V.length ++ (K ++ V))) := by
    rw [List.drop_left' hcb, hBassoc]
  have hd2t : ((cb ++ (t8 ++ u32be K.length ++ u32be V.length ++ K ++ V)).drop
      2).take 8 = t8 := by
    rw [hd2, List.take_left' ht8]
  have hd10 : (cb ++ (t8 ++ u32be K.length ++ u32be V.length ++ K ++ V)).drop
      10 = u32be K.length ++ (u32be V.length ++ (K ++ V)) := by
    have hsplit : (cb ++ (t8 ++ u32be K.length ++ u32be V.length ++ K ++
        V)).drop 10 = ((cb ++ (t8 ++ u32be K.length ++ u32be V.length ++ K ++
        V)).drop 2).drop 8 := by rw [List.drop_drop]
    rw [hsplit, hd2, List.drop_left' ht8]
  have hd10t : ((cb ++ (t8 ++ u32be K.length ++ u32be V.length ++ K ++
      V)).drop 10).take 4 = u32be K.length := by
    rw [hd10, List.take_left' hu32K]
  have hd14 : (cb ++ (t8 ++ u32be K.length ++ u32be V.length ++ K ++ V)).drop
      14 = u32be V.length ++ (K ++ V) := by
    have hsplit : (cb ++ (t8 ++ u32be K.length ++ u32be V.length ++ K ++
        V)).drop 14 = ((cb ++ (t8 ++ u32be K.length ++ u32be V.length ++ K ++
        V)).drop 10).drop 4 := by rw [List.drop_drop]
    rw [hsplit, hd10, List.drop_left' hu32K]
  have hd14t : ((cb ++ (t8 ++ u32be K.length ++ u32be V.length ++ K ++
      V)).drop 14).take 4 = u32be V.length := by
    rw [hd14, List.take_left' hu32V]
  have hd18 : (cb ++ (t8 ++ u32be K.length ++ u32be V.length ++ K ++ V)).drop
      18 = K ++ V := by
    have hsplit : (cb ++ (t8 ++ u32be K.length ++ u32be V.length ++ K ++
        V)).drop 18 = ((cb ++ (t8 ++ u32be K.length ++ u32be V.length ++ K ++
        V)).drop 14).drop 4 := by rw [List.drop_drop]
    rw [hsplit, hd14, List.drop_left' hu32V]
  have hd18t : ((cb ++ (t8 ++ u32be K.length ++ u32be V.length ++ K ++
      V)).drop 18).take K.length = K := by
    rw [hd18, List.take_left]
  have hdKV : (cb ++ (t8 ++ u32be K.length ++ u32be V.length ++ K ++ V)).drop
      (18 + K.length) = V := by
    have hsplit : (cb ++ (t8 ++ u32be K.length ++ u32be V.length ++ K ++
        V)).drop (18 + K.length) = ((cb ++ (t8 ++ u32be K.length ++
        u32be V.length ++ K ++ V)).drop 18).drop K.length := by
      rw [List.drop_drop]
    rw [hsplit, hd18, List.drop_left]
  have hdVt : ((cb ++ (t8 ++ u32be K.length ++ u32be V.length ++ K ++
      V)).drop (18 + K.length)).take V.length = V := by
    rw [hdKV, List.take_length]
  have h0 := readBytes_mid' pre
    (cb ++ (t8 ++ u32be K.length ++ u32be V.length ++ K ++ V)) suf
    pre.length 0 2 (by omega) (by rw [hmidlen]; omega)
  rw [hd0] at h0
  have h1 := readBytes_mid' pre
    (cb ++ (t8 ++ u32be K.length ++ u32be V.length ++ K ++ V)) suf
    (pre.length + 2) 2 8 (by omega) (by rw [hmidlen]; omega)
  rw [hd2t] at h1
  have h2 := readBytes_mid' pre
    (cb ++ (t8 ++ u32be K.length ++ u32be V.length ++ K ++ V)) suf
    (pre.length + 2 + 8) 10 4 (by omega) (by rw [hmidlen]; omega)
  rw [hd10t] at h2
  have h3 := readBytes_mid' pre
    (cb ++ (t8 ++ u32be K.length ++ u32be V.length ++ K ++ V)) suf
    (pre.length + 2 + 8 + 4) 14 4 (by omega) (by rw [hmidlen]; omega)
  rw [hd14t] at h3
  have h4 := readBytes_mid' pre
    (cb ++ (t8 ++ u32be K.length ++ u32be V.length ++ K ++ V)) suf
    (pre.length + 2 + 8 + 4 + 4) 18 K.length (by omega)
    (by rw [hmidlen]; omega)
  rw [hd18t] at h4
  have h5 := readBytes_mid' pre
    (cb ++ (t8 ++ u32be K.length ++ u32be V.length ++ K ++ V)) suf
    (pre.length + 2 + 8 + 4 + 4 + K.length) (18 + K.length) V.length
    (by omega) (by rw [hmidlen])
  rw [hdVt] at h5
  simp only [read_next_entry, hne0, if_false, h0, h1, h2, h3, h4, h5,
    beToNat_u32be, Nat.mod_eq_of_lt hK, Nat.mod_eq_of_lt hV,
    u64be_beToNat t8 ht8 ht8b, u32be_mod]
  rw [if_pos hmm]

/-- Overwriting one byte of an encoded well-formed record anywhere
outside the two length fields (record offsets 10–17) with a different
byte value makes the parse fail with a `DataCorruption` mismatch. -/
theorem encodeRec_set_parse_corrupt (fid : Nat) (pre suf : List Nat)
    (r : Rec) (hwf : r.wf) (o b2 : Nat) (ho : o < (encodeRec r).length)
    (hrange : o < 10 ∨ 18 ≤ o) (hb2 : b2 < 256)
    (hb2ne : b2 ≠ (encodeRec r).getD o 0) :
    ∃ st cp, st ≠ cp ∧
      read_next_entry fid (pre ++ (encodeRec r).set o b2 ++ suf)
        pre.length = .error (.dataCorruption st cp) := by
  obtain ⟨hkl, hvl, hkb, hvb⟩ := hwf
  have hbodyb : ∀ b ∈ encodeBody r.ts r.key r.value, b < 256 :=
    encodeBody_bytes_lt _ _ _ hkb hvb
  have hcrclt : crcX25 (encodeBody r.ts r.key r.value) < 2 ^ 16 :=
    crcX25_lt _ hbodyb
  have hreclen := encodeRec_length r
  have hbodylen := encodeBody_length r.ts r.key r.value
  have henc : encodeRec r =
      u16be (crcX25 (encodeBody r.ts r.key r.value)) ++
        encodeBody r.ts r.key r.value := rfl
  have hu16len : (u16be (crcX25 (encodeBody r.ts r.key r.value))).length =
      2 := rfl
  have hbody_eq : encodeBody r.ts r.key r.value =
      u64be r.ts ++ u32be r.key.length ++ u32be r.value.length ++
        r.key ++ r.value := rfl
  have hcrcbeq : beToNat (u16be (crcX25 (encodeBody r.ts r.key r.value))) =
      crcX25 (encodeBody r.ts r.key r.value) := by
    rw [beToNat_u16be]
    exact Nat.mod_eq_of_lt hcrclt
  by_cases ho2 : o < 2
  · -- the stored checksum itself is corrupted
    have hset : (encodeRec r).set o b2 =
        (u16be (crcX25 (encodeBody r.ts r.key r.value))).set o b2 ++
          encodeBody r.ts r.key r.value := by
      rw [henc, set_append_left _ _ _ _ (by rw [hu16len]; omega)]
    have hgetD : (encodeRec r).getD o 0 =
        (u16be (crcX25 (encodeBody r.ts r.key r.value))).getD o 0 := by
      rw [henc, List.getD_append _ _ _ _ (by rw [hu16len]; omega)]
    refine ⟨beToNat ((u16be (crcX25 (encodeBody r.ts r.key r.value))).set
      o b2), crcX25 (encodeBody r.ts r.key r.value), ?_, ?_⟩
    · exact u16be_set_ne _ o b2 hcrclt ho2 (hgetD ▸ hb2ne)
    · rw [hset, hbody_eq]
      exact read_next_entry_corrupt fid pre suf _ (u64be r.ts) r.key
        r.value (by rw [List.length_set]; rfl) rfl (u64be_bytes_lt r.ts)
        hkl hvl
        (by rw [← hbody_eq]
            exact u16be_set_ne _ o b2 hcrclt ho2 (hgetD ▸ hb2ne))
  · -- a body byte is corrupted (outside the two length fields)
    have ho2' : 2 ≤ o := by omega
    have hp : o - 2 < (encodeBody r.ts r.key r.value).length := by
      rw [hbodylen]; omega
    have hbne : b2 ≠ (encodeBody r.ts r.key r.value).getD (o - 2) 0 := by
      rw [henc, List.getD_append_right _ _ _ _ (by rw [hu16len]; omega),
        hu16len] at hb2ne
      exact hb2ne
    obtain ⟨hbdec, hbset⟩ :=
      set_decomp (encodeBody r.ts r.key r.value) (o - 2) b2 hp
    have ha256 : (encodeBody r.ts r.key r.value).getD (o - 2) 0 < 256 :=
      hbodyb _ (getD_mem_of_lt _ _ hp)
    have hcrcne : crcX25 (encodeBody r.ts r.key r.value) ≠
        crcX25 ((encodeBody r.ts r.key r.value).set (o - 2) b2) := by
      rw [hbset]
      conv_lhs => rw [hbdec]
      exact crcX25_ne_of_single_byte_diff _ _ _ _ ha256 hb2 (Ne.symm hbne)
    have hsetrec : (encodeRec r).set o b2 =
        u16be (crcX25 (encodeBody r.ts r.key r.value)) ++
          (encodeBody r.ts r.key r.value).set (o - 2) b2 := by
      rw [henc, set_append_right _ _ _ _ (by rw [hu16len]; omega), hu16len]
    refine ⟨crcX25 (encodeBody r.ts r.key r.value),
      crcX25 ((encodeBody r.ts r.key r.value).set (o - 2) b2), hcrcne, ?_⟩
    have hrange' : o - 2 < 8 ∨ 16 ≤ o - 2 := by omega
    rcases hrange' with hp8 | hp16
    · -- timestamp byte
      have hfull : (encodeBody r.ts r.key r.value).set (o - 2) b2 =
          (u64be r.ts).set (o - 2) b2 ++ u32be r.key.length ++
            u32be r.value.length ++ r.key ++ r.value := by
        have h1 : encodeBody r.ts r.key r.value =
            u64be r.ts ++ (u32be r.key.length ++ (u32be r.value.length ++
              (r.key ++ r.value))) := by
          rw [hbody_eq]; simp [List.append_assoc]
        rw [h1, set_append_left _ _ _ _
          (by rw [show (u64be r.ts).length = 8 from rfl]; omega)]
        simp [List.append_assoc]
      have hcall := read_next_entry_corrupt fid pre suf
        (u16be (crcX25 (encodeBody r.ts r.key r.value)))
        ((u64be r.ts).set (o - 2) b2) r.key r.value rfl
        (by rw [List.length_set]; rfl)
        (set_bytes_lt _ _ _ (u64be_bytes_lt r.ts) hb2) hkl hvl
        (by rw [hcrcbeq, ← hfull]; exact hcrcne)
      rw [hcrcbeq] at hcall
      rw [hsetrec, hfull]
      exact hcall
    · -- key or value byte
      have h16 : (u64be r.ts ++ u32be r.key.length ++
          u32be r.value.length).length = 16 := by
        simp [u64be, u32be]
      have h1 : encodeBody r.ts r.key r.value =
          (u64be r.ts ++ u32be r.key.length ++ u32be r.value.length) ++
            (r.key ++ r.value) := by
        rw [hbody_eq]; simp [List.append_assoc]
      by_cases hqk : o - 2 - 16 < r.key.length
      · -- key byte
        have hKlen : (r.key.set (o - 2 - 16) b2).length = r.key.length :=
          List.length_set r.key _ _
        have hfull : (encodeBody r.ts r.key r.value).set (o - 2) b2 =
            u64be r.ts ++ u32be r.key.length ++ u32be r.value.length ++
              r.key.set (o - 2 - 16) b2 ++ r.value := by
          rw [h1, set_append_right _ _ _ _ (by rw [h16]; omega), h16,
            set_append_left _ _ _ _ hqk]
          simp [List.append_assoc]
        have hcall := read_next_entry_corrupt fid pre suf
          (u16be (crcX25 (encodeBody r.ts r.key r.value)))
          (u64be r.ts) (r.key.set (o - 2 - 16) b2) r.value rfl rfl
          (u64be_bytes_lt r.ts) (by rw [hKlen]; exact hkl) hvl
          (by rw [hcrcbeq, hKlen, ← hfull]; exact hcrcne)
        rw [hcrcbeq, hKlen] at hcall
        rw [hsetrec, hfull]
        exact hcall
      · -- value byte
        have hq : o - 2 - 16 - r.key.length < r.value.length := by
          have hp' : o - 2 < 16 + r.key.length + r.value.length := by
            rw [hbodylen] at hp; exact hp
          omega
        have hVlen : (r.value.set (o - 2 - 16 - r.key.length) b2).length =
            r.value.length := List.length_set r.value _ _
        have hfull : (encodeBody r.ts r.key r.value).set (o - 2) b2 =
            u64be r.ts ++ u32be r.key.length ++ u32be r.value.length ++
              r.key ++ r.value.set (o - 2 - 16 - r.key.length) b2 := by
          rw [h1, set_append_right _ _ _ _ (by rw [h16]; omega), h16,
            set_append_right _ _ _ _ (by omega)]
          simp [List.append_assoc]
        have hcall := read_next_entry_corrupt fid pre suf
          (u16be (crcX25 (encodeBody r.ts r.key r.value)))
          (u64be r.ts) r.key (r.value.set (o - 2 - 16 - r.key.length) b2)
          rfl rfl (u64be_bytes_lt r.ts) hkl (by rw [hVlen]; exact hvl)
          (by rw [hcrcbeq, hVlen, ← hfull]; exact hcrcne)
        rw [hcrcbeq, hVlen] at hcall
        rw [hsetrec, hfull]
        exact hcall

/-- A parse failure anywhere after a well-formed prefix of records
makes the whole file fail to load with that error. -/
theorem load_entries_corrupt (fid : Nat) (rsPre : List Rec)
    (hwfPre : ∀ r ∈ rsPre, r.wf) (bad tail : List Nat) (e : StorageError)
    (hparse : read_next_entry fid (fileOf rsPre ++ bad ++ tail)
        (fileOf rsPre).length = .error e) :
    load_entries fid (fileOf rsPre ++ bad ++ tail) = .error e := by
  have hchain := loadAux_chain fid (bad ++ tail) rsPre hwfPre []
  simp only [List.nil_append, List.length_nil, Nat.zero_add,
    List.append_assoc] at hchain
  have herr : loadAux fid (fileOf rsPre ++ (bad ++ tail))
      (fileOf rsPre).length = .error e :=
    loadAux_eq_error (by simpa [List.append_assoc] using hparse)
  rw [herr] at hchain
  unfold load_entries
  simp only [List.append_assoc]
  rw [hchain]
  rfl

/-- An erroring file aborts the recovery fold after any number of
cleanly loading files. -/
theorem loadKeyDir_error_lift (files : Nat → List Nat) (e : StorageError) :
    ∀ (idsPre : List Nat) (c : Nat) (idsSuf : List Nat) (kd0 : KeyDir),
      (∀ i ∈ idsPre, ∃ ents, load_entries i (files i) = .ok ents) →
      load_entries c (files c) = .error e →
      loadKeyDir files (idsPre ++ c :: idsSuf) kd0 = .error e := by
  intro idsPre
  induction idsPre with
  | nil =>
    intro c idsSuf kd0 _ herr
    simp only [List.nil_append]
    unfold loadKeyDir
    rw [herr]
  | cons i rest ih =>
    intro c idsSuf kd0 hok herr
    obtain ⟨ents, hents⟩ := hok i (by simp)
    simp only [List.cons_append]
    unfold loadKeyDir
    rw [hents]
    exact ih c idsSuf _ (fun j hj => hok j (by simp [hj])) herr

/-- C5 (amended): open a directory whose log files load cleanly up to
one file in which a single byte of one record was overwritten with a
different value at an offset outside the two length fields (record
offsets 10–17, the key-length and value-length words): recovery fails
with `DataCorruption(stored, computed)`, `stored ≠ computed`.  (For a
byte inside the length fields the failure can instead surface as an
I/O `UnexpectedEof` error, because the lengths are used to read the
key and value before the checksum is verified.) -/
theorem c5_open_corruption (hist : Nat → List Rec)
    (files : Nat → List Nat) (idsPre : List Nat) (c : Nat)
    (idsSuf : List Nat) (kd0 : KeyDir) (rsPre : List Rec) (rj : Rec)
    (tail : List Nat) (o b2 : Nat)
    (hpre : ∀ i ∈ idsPre, files i = fileOf (hist i) ∧
      ∀ r ∈ hist i, r.wf)
    (hwfPre : ∀ r ∈ rsPre, r.wf) (hwfj : rj.wf)
    (ho : o < (encodeRec rj).length) (hrange : o < 10 ∨ 18 ≤ o)
    (hb2 : b2 < 256) (hb2ne : b2 ≠ (encodeRec rj).getD o 0)
    (hfc : files c = fileOf rsPre ++ (encodeRec rj).set o b2 ++ tail) :
    isDataCorruption (loadKeyDir files (idsPre ++ c :: idsSuf) kd0) =
      true := by
  obtain ⟨st, cp, hstcp, hparse⟩ := encodeRec_set_parse_corrupt c
    (fileOf rsPre) tail rj hwfj o b2 ho hrange hb2 hb2ne
  have herr : load_entries c (files c) = .error (.dataCorruption st cp) := by
    rw [hfc]
    exact load_entries_corrupt c rsPre hwfPre _ tail _ hparse
  have hok : ∀ i ∈ idsPre, ∃ ents, load_entries i (files i) = .ok ents := by
    intro i hi
    obtain ⟨hf, hw⟩ := hpre i hi
    exact ⟨entriesOf i 0 (hist i), by
      rw [hf]; exact load_entries_fileOf i (hist i) hw⟩
  rw [loadKeyDir_error_lift files _ idsPre c idsSuf kd0 hok herr]
  simp [isDataCorruption, hstcp]

/-- The record of the concrete corruption scenarios below:
`set("k", "v")` at timestamp 0. -/
def c5wrec : Rec := { ts := 0, key := [107], value := [118] }

/-- A directory with the single log file `0.log` holding that one
record, with the value byte (record offset 19) overwritten by 0. -/
def c5wfiles : Nat → List Nat :=
  fun i => if i = 0 then
    fileOf [] ++ (encodeRec c5wrec).set 19 0 ++ fileOf [] else []

set_option maxRecDepth 20000 in
/-- C5, witness: the amended theorem applied to that directory: the
corrupted value byte is detected as a checksum mismatch. -/
theorem c5_witness :
    isDataCorruption (loadKeyDir c5wfiles [0] []) = true :=
  c5_open_corruption (fun _ => []) c5wfiles [] 0 [] [] [] c5wrec
    (fileOf []) 19 0
    (by intro i hi; cases hi) (by intro r hr; cases hr)
    (by decide)
    (by rw [encodeRec_length]; decide)
    (Or.inr (by decide)) (by decide) (by decide) rfl

/-- The single-record well-formed log used by the counterexample. -/
def c5rs : List Rec := [c5wrec]

set_option maxRecDepth 20000 in
/-- C5, counterexample: overwriting one byte *inside a length field*
(record offset 14, the high byte of the value-length word, originally
0, overwritten by 1) of the well-formed single-record log makes `open`
fail with the I/O error (`UnexpectedEof` while reading the oversized
value), not with `DataCorruption`; the unmodified directory loads
fine. -/
theorem c5_counterexample :
    (∀ r ∈ c5rs, r.wf) ∧
    (fileOf c5rs).getD 14 0 = 0 ∧
    loadKeyDir (fun i => if i = 0 then (fileOf c5rs).set 14 1 else [])
      [0] [] = .error .io ∧
    loadKeyDir (fun i => if i = 0 then fileOf c5rs else []) [0] [] =
      .ok [([107], ⟨0, 1, 19, 0⟩)] := by
  refine ⟨by decide, by decide, ?_, ?_⟩
  · have hread : read_next_entry 0 ((fileOf c5rs).set 14 1) 0 =
        .error .io := by rfl
    have herr : load_entries 0 ((fileOf c5rs).set 14 1) = .error .io :=
      loadAux_eq_error hread
    have hlift := loadKeyDir_error_lift
      (fun i => if i = 0 then (fileOf c5rs).set 14 1 else []) .io
      [] 0 [] [] (by intro i hi; cases hi) herr
    simpa using hlift
  · have hfold := loadKeyDir_fold
      (fun i => if i = 0 then fileOf c5rs else []) (fun _ => c5rs) [0]
      (by
        intro i hi
        have hi0 : i = 0 := by simpa using hi
        subst hi0
        exact ⟨rfl, by decide⟩) []
    rw [hfold]
    rfl

end Smoldb
